import Mathlib

set_option maxRecDepth 16384

/-!
Verification development for the shakmaty / shakmaty-syzygy repository.

The development shallowly embeds the parts of the code base the claims are
about: the `Board` bitboard container from `shakmaty/src/board.rs`, and the
Syzygy tablebase probing engine described in `spec.md` (material
classification, header parsing, block decompression and caching, position
encoding, WDL/DTZ probing).  Boards are represented with one finite set of
squares per role and per color, mirroring the six role bitboards and two
color bitboards of the Rust `Board` struct; a `u64` bitboard denotes exactly
the set of squares whose bits are set, and every operation used by the code
(`|`, `&`, `^` with a single-square bit, `count`) is the image of the
corresponding set operation, so no overflow or wraparound is involved.
-/

/-- A square of the chess board, numbered 0..63 as in shakmaty
(`file + 8 * rank`). -/
abbrev Square : Type := Fin 64

/-- The file (column) of a square, 0..7. -/
def Square.file (sq : Square) : Nat := sq.val % 8

/-- The rank (row) of a square, 0..7. -/
def Square.rank (sq : Square) : Nat := sq.val / 8

/-- Build a square from file and rank coordinates (reduced mod 8, so the
function is total; all uses stay in range). -/
def Square.fromCoords (f r : Nat) : Square :=
  ⟨(f % 8) + 8 * (r % 8), by omega⟩

/-- A bitboard: the set of squares whose bits are set in the `u64`. -/
abbrev Bitboard : Type := Finset Square

namespace Bitboard

/-- `Bitboard::EMPTY`. -/
def EMPTY : Bitboard := (∅ : Finset Square)

/-- The bitboard denoted by a `u64` constant: the set of squares whose bits
are set. -/
def ofNat (x : Nat) : Bitboard :=
  Finset.univ.filter (fun sq : Square => x.testBit sq.val)

/-- `Bitboard::count`: number of set bits. -/
def count (s : Bitboard) : Nat := Finset.card s

/-- `Bitboard::toggle` (`^=` with the bit of `sq`): flips membership of the
square. -/
def toggle (s : Bitboard) (sq : Square) : Bitboard :=
  if sq ∈ s then Finset.erase s sq else insert sq s

/-- `Bitboard::discard` (`&= !bit`): removes the square if present. -/
def discard (s : Bitboard) (sq : Square) : Bitboard := Finset.erase s sq

/-- `Bitboard::contains`. -/
def contains (s : Bitboard) (sq : Square) : Bool := decide (sq ∈ s)

/-- `Bitboard::with_const` (`|`, bitwise or). -/
def with_const (s t : Bitboard) : Bitboard := s ∪ t

/-- `Bitboard::intersects_const`: the intersection is nonempty. -/
def intersects_const (s t : Bitboard) : Bool := decide ((s ∩ t) ≠ ∅)

/-- Lift a square mapping to a bitboard transformation (the shape of all
`Bitboard` symmetry transforms: a permutation of the 64 bits). -/
def mapSquares (p : Square → Square) (s : Bitboard) : Bitboard :=
  Finset.image p s

end Bitboard

/-- Modelled from the spec: the board symmetries used by `Board` come from
`shakmaty`'s `Bitboard` (not under `src/`); each is a permutation of the 64
squares.  `flip_vertical` mirrors ranks. -/
def flipVerticalSq (sq : Square) : Square :=
  Square.fromCoords sq.file (7 - sq.rank)

/-- Modelled from the spec: `Bitboard::flip_horizontal` mirrors files. -/
def flipHorizontalSq (sq : Square) : Square :=
  Square.fromCoords (7 - sq.file) sq.rank

/-- Modelled from the spec: `Bitboard::flip_diagonal` mirrors at the a1-h8
diagonal, exchanging file and rank. -/
def flipDiagonalSq (sq : Square) : Square :=
  Square.fromCoords sq.rank sq.file

/-- Modelled from the spec: `Bitboard::flip_anti_diagonal` mirrors at the
h1-a8 diagonal. -/
def flipAntiDiagonalSq (sq : Square) : Square :=
  Square.fromCoords (7 - sq.rank) (7 - sq.file)

/-- Modelled from the spec: `Bitboard::rotate_90` (clockwise), the
composition of the diagonal flip and the vertical flip. -/
def rotate90Sq (sq : Square) : Square :=
  flipVerticalSq (flipDiagonalSq sq)

/-- Modelled from the spec: `Bitboard::rotate_180`. -/
def rotate180Sq (sq : Square) : Square :=
  Square.fromCoords (7 - sq.file) (7 - sq.rank)

/-- Modelled from the spec: `Bitboard::rotate_270` (counterclockwise),
inverse of `rotate90Sq`. -/
def rotate270Sq (sq : Square) : Square :=
  flipDiagonalSq (flipVerticalSq sq)

/-- The color of a piece. -/
inductive Color where
  | white
  | black
deriving DecidableEq, Repr, Fintype

/-- The role of a piece. -/
inductive Role where
  | pawn
  | knight
  | bishop
  | rook
  | queen
  | king
deriving DecidableEq, Repr, Fintype

/-- A piece: color and role, as in shakmaty. -/
structure Piece where
  color : Color
  role : Role
deriving DecidableEq, Repr

/-- `ByRole<T>`: one value per role. -/
structure ByRole (α : Type) where
  pawn : α
  knight : α
  bishop : α
  rook : α
  queen : α
  king : α
deriving DecidableEq

/-- `ByColor<T>`: one value per color. -/
structure ByColor (α : Type) where
  black : α
  white : α
deriving DecidableEq

namespace ByRole

/-- `ByRole::get`. -/
def get (br : ByRole α) (r : Role) : α :=
  match r with
  | .pawn => br.pawn
  | .knight => br.knight
  | .bishop => br.bishop
  | .rook => br.rook
  | .queen => br.queen
  | .king => br.king

/-- Functional model of `ByRole::get_mut` followed by an update: replaces the
value at one role. -/
def update (br : ByRole α) (r : Role) (f : α → α) : ByRole α :=
  match r with
  | .pawn => { br with pawn := f br.pawn }
  | .knight => { br with knight := f br.knight }
  | .bishop => { br with bishop := f br.bishop }
  | .rook => { br with rook := f br.rook }
  | .queen => { br with queen := f br.queen }
  | .king => { br with king := f br.king }

/-- `ByRole::map` / `as_mut().for_each` applying the same function to every
entry. -/
def map (br : ByRole α) (f : α → β) : ByRole β :=
  ⟨f br.pawn, f br.knight, f br.bishop, f br.rook, f br.queen, f br.king⟩

end ByRole

namespace ByColor

/-- `ByColor::get`. -/
def get (bc : ByColor α) (c : Color) : α :=
  match c with
  | .black => bc.black
  | .white => bc.white

/-- Functional model of `ByColor::get_mut` followed by an update. -/
def update (bc : ByColor α) (c : Color) (f : α → α) : ByColor α :=
  match c with
  | .black => { bc with black := f bc.black }
  | .white => { bc with white := f bc.white }

/-- `ByColor::map` / `as_mut().for_each`. -/
def map (bc : ByColor α) (f : α → β) : ByColor β :=
  ⟨f bc.black, f bc.white⟩

/-- `ByColor::swap`: exchanges the two entries. -/
def swap (bc : ByColor α) : ByColor α :=
  ⟨bc.white, bc.black⟩

end ByColor

/-- The error kinds of `InconsistentBitboardsError`. -/
inductive InconsistentBitboardsErrorKind where
  | rolesOverlap
  | colorsOverlap
  | rolesColorsMismatch
deriving DecidableEq, Repr

/-- `Board`: piece positions, as three redundant views (per-role bitboards,
per-color bitboards, and the occupied bitboard). -/
structure Board where
  by_role : ByRole Bitboard
  by_color : ByColor Bitboard
  occupied : Bitboard
deriving DecidableEq

namespace Board

/-- `Board::new()`: the chess starting position. -/
def new : Board where
  by_role :=
    { pawn := Bitboard.ofNat 0x00ff00000000ff00,
      knight := Bitboard.ofNat 0x4200000000000042,
      bishop := Bitboard.ofNat 0x2400000000000024,
      rook := Bitboard.ofNat 0x8100000000000081,
      queen := Bitboard.ofNat 0x0800000000000008,
      king := Bitboard.ofNat 0x1000000000000010 }
  by_color :=
    { black := Bitboard.ofNat 0xffff000000000000,
      white := Bitboard.ofNat 0xffff }
  occupied := Bitboard.ofNat 0xffff00000000ffff

/-- `Board::empty()`. -/
def empty : Board where
  by_role :=
    { pawn := Bitboard.EMPTY, knight := Bitboard.EMPTY, bishop := Bitboard.EMPTY,
      rook := Bitboard.EMPTY, queen := Bitboard.EMPTY, king := Bitboard.EMPTY }
  by_color := { black := Bitboard.EMPTY, white := Bitboard.EMPTY }
  occupied := Bitboard.EMPTY

/-- The six role bitboards as a list (order of the struct fields). -/
def roleList (br : ByRole Bitboard) : List Bitboard :=
  [br.pawn, br.knight, br.bishop, br.rook, br.queen, br.king]

/-- The union of the six role bitboards, associated exactly as the chain of
`with_const` calls in `try_from_bitboards`. -/
def rolesUnion (br : ByRole Bitboard) : Bitboard :=
  ((((br.pawn.with_const br.knight).with_const br.bishop).with_const
      br.rook).with_const br.queen).with_const br.king

/-- `Board::try_from_bitboards`, including its three error checks in source
order. -/
def try_from_bitboards (br : ByRole Bitboard) (bc : ByColor Bitboard) :
    Except InconsistentBitboardsErrorKind Board :=
  let occupied := rolesUnion br
  if occupied.count ≠
      br.pawn.count + br.knight.count + br.bishop.count + br.rook.count +
        br.queen.count + br.king.count then
    .error .rolesOverlap
  else if bc.black.intersects_const bc.white then
    .error .colorsOverlap
  else if occupied ≠ bc.black.with_const bc.white then
    .error .rolesColorsMismatch
  else
    .ok { by_role := br, by_color := bc, occupied := occupied }

/-- `Board::into_bitboards`. -/
def into_bitboards (b : Board) : ByRole Bitboard × ByColor Bitboard :=
  (b.by_role, b.by_color)

/-- `Board::color_at`: `by_color.find(|c| c.contains(sq))`, checking the two
color bitboards in field order. -/
def color_at (b : Board) (sq : Square) : Option Color :=
  if sq ∈ b.by_color.black then some .black
  else if sq ∈ b.by_color.white then some .white
  else none

/-- `ByRole::find_or_king` applied to `contains sq`: the first role whose
bitboard holds the square, defaulting to king. -/
def find_or_king (br : ByRole Bitboard) (sq : Square) : Role :=
  if sq ∈ br.pawn then .pawn
  else if sq ∈ br.knight then .knight
  else if sq ∈ br.bishop then .bishop
  else if sq ∈ br.rook then .rook
  else if sq ∈ br.queen then .queen
  else .king

/-- `Board::role_at`. -/
def role_at (b : Board) (sq : Square) : Option Role :=
  if sq ∈ b.occupied then some (find_or_king b.by_role sq) else none

/-- `Board::piece_at`. -/
def piece_at (b : Board) (sq : Square) : Option Piece :=
  (b.color_at sq).map (fun color => ⟨color, find_or_king b.by_role sq⟩)

/-- `Board::remove_piece_at` (returning the removed piece and the new
board). -/
def remove_piece_at (b : Board) (sq : Square) : Option Piece × Board :=
  match b.piece_at sq with
  | some p =>
    (some p,
      { by_role := b.by_role.update p.role (·.toggle sq),
        by_color := b.by_color.update p.color (·.toggle sq),
        occupied := b.occupied.toggle sq })
  | none => (none, b)

/-- `Board::discard_piece_at`. -/
def discard_piece_at (b : Board) (sq : Square) : Board where
  by_role := b.by_role.map (·.discard sq)
  by_color := b.by_color.map (·.discard sq)
  occupied := b.occupied.discard sq

/-- `Board::set_piece_at`. -/
def set_piece_at (b : Board) (sq : Square) (p : Piece) : Board :=
  let b := b.discard_piece_at sq
  { by_role := b.by_role.update p.role (·.toggle sq),
    by_color := b.by_color.update p.color (·.toggle sq),
    occupied := b.occupied.toggle sq }

/-- `Board::swap_colors`. -/
def swap_colors (b : Board) : Board :=
  { b with by_color := b.by_color.swap }

/-- `Board::transform`: applies a bitboard transformation to every role and
color bitboard and recomputes `occupied` as the union of the color
bitboards. -/
def transform (b : Board) (f : Bitboard → Bitboard) : Board :=
  let by_role := b.by_role.map f
  let by_color := b.by_color.map f
  { by_role := by_role,
    by_color := by_color,
    occupied := by_color.white ∪ by_color.black }

/-- `Board::flip_vertical`. -/
def flip_vertical (b : Board) : Board :=
  b.transform (Bitboard.mapSquares flipVerticalSq)

/-- `Board::flip_horizontal`. -/
def flip_horizontal (b : Board) : Board :=
  b.transform (Bitboard.mapSquares flipHorizontalSq)

/-- `Board::flip_diagonal`. -/
def flip_diagonal (b : Board) : Board :=
  b.transform (Bitboard.mapSquares flipDiagonalSq)

/-- `Board::flip_anti_diagonal`. -/
def flip_anti_diagonal (b : Board) : Board :=
  b.transform (Bitboard.mapSquares flipAntiDiagonalSq)

/-- `Board::rotate_90`. -/
def rotate_90 (b : Board) : Board :=
  b.transform (Bitboard.mapSquares rotate90Sq)

/-- `Board::rotate_180`. -/
def rotate_180 (b : Board) : Board :=
  b.transform (Bitboard.mapSquares rotate180Sq)

/-- `Board::rotate_270`. -/
def rotate_270 (b : Board) : Board :=
  b.transform (Bitboard.mapSquares rotate270Sq)

/-- Pairwise disjointness of the six role bitboards. -/
def PairwiseDisjointRoles (br : ByRole Bitboard) : Prop :=
  ∀ r₁ r₂ : Role, r₁ ≠ r₂ → br.get r₁ ∩ br.get r₂ = ∅

instance (br : ByRole Bitboard) : Decidable (PairwiseDisjointRoles br) := by
  unfold PairwiseDisjointRoles
  infer_instance

/-- The internal invariant of `Board`: the six role bitboards are pairwise
disjoint, the two color bitboards are disjoint, and `occupied` equals both
the union of the role bitboards and the union of the color bitboards. -/
def Consistent (b : Board) : Prop :=
  PairwiseDisjointRoles b.by_role ∧
    b.by_color.black ∩ b.by_color.white = ∅ ∧
    b.occupied = rolesUnion b.by_role ∧
    b.occupied = b.by_color.black ∪ b.by_color.white

instance (b : Board) : Decidable b.Consistent := by
  unfold Consistent
  infer_instance

end Board

/-! ### Support lemmas for the `Board` invariant -/

namespace Board

/-- Union of a list of bitboards. -/
def unionList (l : List Bitboard) : Bitboard := l.foldr (· ∪ ·) ∅

theorem disjoint_unionList {s : Bitboard} {l : List Bitboard} :
    s ∩ unionList l = ∅ ↔ ∀ t ∈ l, s ∩ t = ∅ := by
  induction l with
  | nil => simp [unionList]
  | cons t ts ih =>
    simp [unionList, Finset.inter_union_distrib_left, Finset.union_eq_empty] at *
    tauto

theorem card_unionList_le (l : List Bitboard) :
    (unionList l).card ≤ (l.map Finset.card).sum := by
  induction l with
  | nil => simp [unionList]
  | cons t ts ih =>
    calc (unionList (t :: ts)).card ≤ t.card + (unionList ts).card :=
          Finset.card_union_le _ _
      _ ≤ t.card + (ts.map Finset.card).sum := by omega
      _ = ((t :: ts).map Finset.card).sum := by simp

theorem card_unionList_eq_iff (l : List Bitboard) :
    (unionList l).card = (l.map Finset.card).sum ↔
      l.Pairwise (fun s t => s ∩ t = ∅) := by
  induction l with
  | nil => simp [unionList]
  | cons t ts ih =>
    have hu : unionList (t :: ts) = t ∪ unionList ts := rfl
    have hs : ((t :: ts).map Finset.card).sum
        = t.card + (ts.map Finset.card).sum := by simp
    rw [hu, hs]
    constructor
    · intro h
      have h1 : (t ∪ unionList ts).card ≤ t.card + (unionList ts).card :=
        Finset.card_union_le _ _
      have h2 : (unionList ts).card ≤ (ts.map Finset.card).sum :=
        card_unionList_le ts
      have h3 : (unionList ts).card = (ts.map Finset.card).sum := by omega
      have h5 : (t ∩ unionList ts).card = 0 := by
        have h6 := Finset.card_union_add_card_inter t (unionList ts)
        omega
      exact List.Pairwise.cons (disjoint_unionList.mp (Finset.card_eq_zero.mp h5))
        (ih.mp h3)
    · intro h
      rcases List.pairwise_cons.mp h with ⟨hhead, htail⟩
      have h6 : t ∩ unionList ts = ∅ := disjoint_unionList.mpr hhead
      rw [Finset.card_union_of_disjoint (Finset.disjoint_iff_inter_eq_empty.mpr h6),
        ih.mpr htail]

theorem rolesUnion_eq_unionList (br : ByRole Bitboard) :
    rolesUnion br = unionList (roleList br) := by
  simp [rolesUnion, roleList, unionList, Bitboard.with_const, Finset.union_assoc]

theorem pairwise_roleList_iff (br : ByRole Bitboard) :
    (roleList br).Pairwise (fun s t => s ∩ t = ∅) ↔ PairwiseDisjointRoles br := by
  simp only [roleList, List.pairwise_cons, List.mem_cons, List.not_mem_nil,
    or_false, List.Pairwise.nil, and_true, or_imp, forall_and, forall_eq,
    false_implies, implies_true]
  constructor
  · rintro ⟨⟨hpk, hpb, hpr, hpq, hpg⟩, ⟨hkb, hkr, hkq, hkg⟩, ⟨hbr, hbq, hbg⟩,
      ⟨hrq, hrg⟩, hqg⟩ r₁ r₂ hne
    cases r₁ <;> cases r₂ <;> simp only [ByRole.get] <;>
      first
        | exact absurd rfl hne
        | assumption
        | (rw [Finset.inter_comm]; assumption)
  · intro h
    exact ⟨⟨h .pawn .knight (by decide), h .pawn .bishop (by decide),
        h .pawn .rook (by decide), h .pawn .queen (by decide),
        h .pawn .king (by decide)⟩,
      ⟨h .knight .bishop (by decide), h .knight .rook (by decide),
        h .knight .queen (by decide), h .knight .king (by decide)⟩,
      ⟨h .bishop .rook (by decide), h .bishop .queen (by decide),
        h .bishop .king (by decide)⟩,
      ⟨h .rook .queen (by decide), h .rook .king (by decide)⟩,
      h .queen .king (by decide)⟩

theorem mem_rolesUnion {br : ByRole Bitboard} {sq : Square} :
    sq ∈ rolesUnion br ↔ ∃ r : Role, sq ∈ br.get r := by
  simp only [rolesUnion, Bitboard.with_const, Finset.mem_union]
  constructor
  · rintro (((((h | h) | h) | h) | h) | h)
    exacts [⟨.pawn, h⟩, ⟨.knight, h⟩, ⟨.bishop, h⟩, ⟨.rook, h⟩, ⟨.queen, h⟩,
      ⟨.king, h⟩]
  · rintro ⟨r, h⟩
    cases r <;> simp only [ByRole.get] at h <;> tauto

end Board

theorem ByRole.get_map (br : ByRole α) (f : α → β) (r : Role) :
    (br.map f).get r = f (br.get r) := by
  cases r <;> rfl

theorem ByRole.get_update (br : ByRole α) (r : Role) (f : α → α) (r' : Role) :
    (br.update r f).get r' = if r' = r then f (br.get r') else br.get r' := by
  cases r <;> cases r' <;> simp [ByRole.update, ByRole.get]

theorem inter_empty_mono {s' s t' t : Bitboard} (hs : s' ⊆ s) (ht : t' ⊆ t)
    (h : s ∩ t = ∅) : s' ∩ t' = ∅ :=
  Finset.subset_empty.mp (h ▸ Finset.inter_subset_inter hs ht)

namespace Board

theorem count_rolesUnion_iff (br : ByRole Bitboard) :
    (rolesUnion br).count =
      br.pawn.count + br.knight.count + br.bishop.count + br.rook.count +
        br.queen.count + br.king.count ↔ PairwiseDisjointRoles br := by
  have hsum : ((roleList br).map Finset.card).sum =
      br.pawn.count + br.knight.count + br.bishop.count + br.rook.count +
        br.queen.count + br.king.count := by
    simp [roleList, Bitboard.count]
    omega
  rw [← pairwise_roleList_iff, ← card_unionList_eq_iff, ← rolesUnion_eq_unionList,
    hsum]
  exact Iff.rfl

/-- A successfully constructed board satisfies the invariant. -/
theorem consistent_of_try_from_bitboards {br : ByRole Bitboard}
    {bc : ByColor Bitboard} {b : Board}
    (h : try_from_bitboards br bc = .ok b) : b.Consistent := by
  by_cases h1 : (rolesUnion br).count =
      br.pawn.count + br.knight.count + br.bishop.count + br.rook.count +
        br.queen.count + br.king.count
  · by_cases h2 : bc.black ∩ bc.white = ∅
    · by_cases h3 : rolesUnion br = bc.black ∪ bc.white
      · simp only [try_from_bitboards] at h
        rw [if_neg (by simp [h1]), if_neg (by simp [Bitboard.intersects_const, h2]),
          if_neg (by simp [Bitboard.with_const, h3])] at h
        injection h with h4
        subst h4
        exact ⟨(count_rolesUnion_iff br).mp h1, h2, rfl, h3⟩
      · simp [try_from_bitboards, h1, Bitboard.intersects_const,
          Bitboard.with_const, h2, h3] at h
    · simp [try_from_bitboards, h1, Bitboard.intersects_const,
        Bitboard.with_const, h2] at h
  · simp [try_from_bitboards, h1] at h

theorem consistent_discard {b : Board} (h : b.Consistent) (sq : Square) :
    (b.discard_piece_at sq).Consistent := by
  obtain ⟨hpd, hbw, hr, hc⟩ := h
  refine ⟨?_, ?_, ?_, ?_⟩
  · intro r₁ r₂ hne
    simp only [discard_piece_at, ByRole.get_map, Bitboard.discard]
    exact inter_empty_mono (Finset.erase_subset _ _) (Finset.erase_subset _ _)
      (hpd r₁ r₂ hne)
  · simp only [discard_piece_at, ByColor.map, Bitboard.discard]
    exact inter_empty_mono (Finset.erase_subset _ _) (Finset.erase_subset _ _) hbw
  · simp only [discard_piece_at, ByRole.map, Bitboard.discard, rolesUnion,
      Bitboard.with_const, ← Finset.erase_union_distrib]
    rw [hr]
    rfl
  · simp only [discard_piece_at, ByColor.map, Bitboard.discard, ←
      Finset.erase_union_distrib]
    rw [hc]

theorem consistent_swap_colors {b : Board} (h : b.Consistent) :
    b.swap_colors.Consistent := by
  obtain ⟨hpd, hbw, hr, hc⟩ := h
  refine ⟨hpd, ?_, hr, ?_⟩
  · simp only [swap_colors, ByColor.swap]
    rw [Finset.inter_comm]
    exact hbw
  · simp only [swap_colors, ByColor.swap]
    rw [Finset.union_comm]
    exact hc

theorem rolesUnion_map_image (br : ByRole Bitboard) (p : Square → Square) :
    rolesUnion (br.map (Bitboard.mapSquares p)) =
      Bitboard.mapSquares p (rolesUnion br) := by
  simp [rolesUnion, ByRole.map, Bitboard.with_const, Bitboard.mapSquares,
    Finset.image_union]

theorem consistent_transform {b : Board} (h : b.Consistent) {p : Square → Square}
    (hp : Function.Injective p) :
    (b.transform (Bitboard.mapSquares p)).Consistent := by
  obtain ⟨hpd, hbw, hr, hc⟩ := h
  refine ⟨?_, ?_, ?_, ?_⟩
  · intro r₁ r₂ hne
    simp only [transform, ByRole.get_map, Bitboard.mapSquares]
    rw [← Finset.image_inter _ _ hp, hpd r₁ r₂ hne, Finset.image_empty]
  · simp only [transform, ByColor.map, Bitboard.mapSquares]
    rw [← Finset.image_inter _ _ hp, hbw, Finset.image_empty]
  · simp only [transform, ByColor.map]
    rw [rolesUnion_map_image, ← hr, hc]
    simp [Bitboard.mapSquares, Finset.image_union, Finset.union_comm]
  · simp only [transform, ByColor.map]
    rw [Finset.union_comm]

end Board

namespace Board

theorem rolesUnion_update_toggle {br : ByRole Bitboard} {sq : Square}
    (r0 : Role) (hn : ∀ r, sq ∉ br.get r) :
    rolesUnion (br.update r0 (·.toggle sq)) = insert sq (rolesUnion br) := by
  ext x
  simp only [mem_rolesUnion, ByRole.get_update, Finset.mem_insert]
  constructor
  · rintro ⟨r, hx⟩
    by_cases hr0 : r = r0
    · rw [if_pos hr0, Bitboard.toggle, if_neg (hn r)] at hx
      rcases Finset.mem_insert.mp hx with rfl | hx
      · exact .inl rfl
      · exact .inr ⟨r, hx⟩
    · rw [if_neg hr0] at hx
      exact .inr ⟨r, hx⟩
  · rintro (rfl | ⟨r, hx⟩)
    · refine ⟨r0, ?_⟩
      rw [if_pos rfl, Bitboard.toggle, if_neg (hn r0)]
      exact Finset.mem_insert_self _ _
    · refine ⟨r, ?_⟩
      by_cases hr0 : r = r0
      · rw [if_pos hr0, Bitboard.toggle, if_neg (hn r)]
        exact Finset.mem_insert_of_mem hx
      · rw [if_neg hr0]
        exact hx

theorem consistent_set_piece_at {b : Board} (h : b.Consistent) (sq : Square)
    (p : Piece) : (b.set_piece_at sq p).Consistent := by
  obtain ⟨pc, pr⟩ := p
  obtain ⟨hpd, hbw, hr, hc⟩ := consistent_discard h sq
  have hnr : ∀ r : Role, sq ∉ (b.discard_piece_at sq).by_role.get r := by
    intro r
    simp [discard_piece_at, ByRole.get_map, Bitboard.discard]
  have hnb : sq ∉ (b.discard_piece_at sq).by_color.black := by
    simp [discard_piece_at, ByColor.map, Bitboard.discard]
  have hnw : sq ∉ (b.discard_piece_at sq).by_color.white := by
    simp [discard_piece_at, ByColor.map, Bitboard.discard]
  have hno : sq ∉ (b.discard_piece_at sq).occupied := by
    simp [discard_piece_at, Bitboard.discard]
  refine ⟨?_, ?_, ?_, ?_⟩
  · intro r₁ r₂ hne
    simp only [set_piece_at, ByRole.get_update]
    by_cases h1 : r₁ = pr <;> by_cases h2 : r₂ = pr
    · exact absurd (h1.trans h2.symm) hne
    · rw [if_pos h1, if_neg h2, Bitboard.toggle, if_neg (hnr r₁),
        Finset.insert_inter_of_not_mem (hnr r₂)]
      exact hpd r₁ r₂ hne
    · rw [if_neg h1, if_pos h2, Bitboard.toggle, if_neg (hnr r₂),
        Finset.inter_insert_of_not_mem (hnr r₁)]
      exact hpd r₁ r₂ hne
    · rw [if_neg h1, if_neg h2]
      exact hpd r₁ r₂ hne
  · cases pc
    · simp only [set_piece_at, ByColor.update]
      rw [Bitboard.toggle, if_neg hnw, Finset.inter_insert_of_not_mem hnb]
      exact hbw
    · simp only [set_piece_at, ByColor.update]
      rw [Bitboard.toggle, if_neg hnb, Finset.insert_inter_of_not_mem hnw]
      exact hbw
  · simp only [set_piece_at]
    rw [Bitboard.toggle, if_neg hno, rolesUnion_update_toggle pr hnr, hr]
  · cases pc
    · simp only [set_piece_at, ByColor.update]
      rw [Bitboard.toggle, if_neg hno, Bitboard.toggle, if_neg hnw,
        Finset.union_insert, hc]
    · simp only [set_piece_at, ByColor.update]
      rw [Bitboard.toggle, if_neg hno, Bitboard.toggle, if_neg hnb,
        Finset.insert_union, hc]

theorem color_at_mem {b : Board} {sq : Square} {c : Color}
    (h : b.color_at sq = some c) : sq ∈ b.by_color.get c := by
  unfold color_at at h
  split_ifs at h with h1 h2 <;> cases h <;> assumption

theorem mem_get_find_or_king {br : ByRole Bitboard} {sq : Square}
    (hmem : sq ∈ rolesUnion br) : sq ∈ br.get (find_or_king br sq) := by
  rcases mem_rolesUnion.mp hmem with ⟨r, hrm⟩
  unfold find_or_king
  split_ifs with h1 h2 h3 h4 h5 <;> simp only [ByRole.get] <;> try assumption
  cases r <;> simp only [ByRole.get] at hrm <;>
    first
      | exact absurd hrm h1
      | exact absurd hrm h2
      | exact absurd hrm h3
      | exact absurd hrm h4
      | exact absurd hrm h5
      | exact hrm

theorem rolesUnion_update_toggle_mem {br : ByRole Bitboard} {sq : Square}
    {r0 : Role} (hmem : sq ∈ br.get r0) (hother : ∀ r, r ≠ r0 → sq ∉ br.get r) :
    rolesUnion (br.update r0 (·.toggle sq)) = (rolesUnion br).erase sq := by
  ext x
  simp only [mem_rolesUnion, ByRole.get_update, Finset.mem_erase]
  constructor
  · rintro ⟨r, hx⟩
    by_cases hr0 : r = r0
    · subst hr0
      rw [if_pos rfl, Bitboard.toggle, if_pos hmem] at hx
      exact ⟨(Finset.mem_erase.mp hx).1, r, (Finset.mem_erase.mp hx).2⟩
    · rw [if_neg hr0] at hx
      exact ⟨fun he => (hother r hr0) (he ▸ hx), r, hx⟩
  · rintro ⟨hxne, r, hx⟩
    by_cases hr0 : r = r0
    · subst hr0
      refine ⟨r, ?_⟩
      rw [if_pos rfl, Bitboard.toggle, if_pos hmem]
      exact Finset.mem_erase.mpr ⟨hxne, hx⟩
    · refine ⟨r, ?_⟩
      rw [if_neg hr0]
      exact hx

theorem consistent_remove_piece_at {b : Board} (h : b.Consistent) (sq : Square) :
    (b.remove_piece_at sq).2.Consistent := by
  obtain ⟨hpd, hbw, hr, hc⟩ := h
  rcases hp : b.piece_at sq with _ | p
  · simp only [remove_piece_at, hp]
    exact ⟨hpd, hbw, hr, hc⟩
  · obtain ⟨pc, pr⟩ := p
    simp only [piece_at, Option.map_eq_some'] at hp
    obtain ⟨c, hco, heq⟩ := hp
    obtain ⟨rfl, rfl⟩ : c = pc ∧ find_or_king b.by_role sq = pr := by
      have := Piece.mk.injEq pc (find_or_king b.by_role sq) pc pr
      cases heq
      exact ⟨rfl, rfl⟩
    have hmemc : sq ∈ b.by_color.get c := color_at_mem hco
    have hocc : sq ∈ b.occupied := by
      rw [hc]
      cases c
      · exact Finset.mem_union_right _ hmemc
      · exact Finset.mem_union_left _ hmemc
    have hmemr : sq ∈ b.by_role.get (find_or_king b.by_role sq) :=
      mem_get_find_or_king (hr ▸ hocc)
    have hother : ∀ r, r ≠ find_or_king b.by_role sq → sq ∉ b.by_role.get r := by
      intro r hne hmem
      have h0 := hpd r (find_or_king b.by_role sq) hne
      have : sq ∈ b.by_role.get r ∩ b.by_role.get (find_or_king b.by_role sq) :=
        Finset.mem_inter.mpr ⟨hmem, hmemr⟩
      rw [h0] at this
      exact absurd this (Finset.not_mem_empty sq)
    have hotherc : ∀ c', c' ≠ c → sq ∉ b.by_color.get c' := by
      intro c' hne hmem
      have : sq ∈ b.by_color.black ∩ b.by_color.white := by
        cases c <;> cases c' <;>
          first
            | exact absurd rfl hne
            | exact Finset.mem_inter.mpr ⟨hmem, hmemc⟩
            | exact Finset.mem_inter.mpr ⟨hmemc, hmem⟩
      rw [hbw] at this
      exact absurd this (Finset.not_mem_empty sq)
    simp only [remove_piece_at, piece_at, hco, Option.map_some']
    refine ⟨?_, ?_, ?_, ?_⟩
    · intro r₁ r₂ hne
      simp only [ByRole.get_update]
      refine inter_empty_mono ?_ ?_ (hpd r₁ r₂ hne) <;>
        · split_ifs with hcase
          · rw [Bitboard.toggle]
            split_ifs
            · exact Finset.erase_subset _ _
            · exact absurd (hcase ▸ hmemr) (by assumption)
          · exact Finset.Subset.refl _
    · cases c
      · have hmw : sq ∈ b.by_color.white := hmemc
        simp only [ByColor.update]
        refine inter_empty_mono ?_ ?_ hbw
        · exact Finset.Subset.refl _
        · rw [Bitboard.toggle, if_pos hmw]
          exact Finset.erase_subset _ _
      · have hmb : sq ∈ b.by_color.black := hmemc
        simp only [ByColor.update]
        refine inter_empty_mono ?_ ?_ hbw
        · rw [Bitboard.toggle, if_pos hmb]
          exact Finset.erase_subset _ _
        · exact Finset.Subset.refl _
    · simp only []
      rw [Bitboard.toggle, if_pos hocc, hr,
        rolesUnion_update_toggle_mem hmemr hother]
    · cases c
      · have hmw : sq ∈ b.by_color.white := hmemc
        have hnbk : sq ∉ b.by_color.black := hotherc .black (by decide)
        simp only [ByColor.update]
        rw [Bitboard.toggle, if_pos hocc, Bitboard.toggle, if_pos hmw, hc,
          Finset.erase_union_distrib, Finset.erase_eq_of_not_mem hnbk]
      · have hmb : sq ∈ b.by_color.black := hmemc
        have hnwt : sq ∉ b.by_color.white := hotherc .white (by decide)
        simp only [ByColor.update]
        rw [Bitboard.toggle, if_pos hocc, Bitboard.toggle, if_pos hmb, hc,
          Finset.erase_union_distrib, Finset.erase_eq_of_not_mem hnwt]

end Board

namespace Board

theorem injective_flipVerticalSq : Function.Injective flipVerticalSq := by decide

theorem injective_flipHorizontalSq : Function.Injective flipHorizontalSq := by
  decide

theorem injective_flipDiagonalSq : Function.Injective flipDiagonalSq := by decide

theorem injective_flipAntiDiagonalSq : Function.Injective flipAntiDiagonalSq := by
  decide

theorem injective_rotate90Sq : Function.Injective rotate90Sq := by decide

theorem injective_rotate180Sq : Function.Injective rotate180Sq := by decide

theorem injective_rotate270Sq : Function.Injective rotate270Sq := by decide

end Board

/-- C9: every `Board` constructed through the public interface (`new`,
`empty`, `try_from_bitboards`) satisfies, and every mutating operation
(`set_piece_at`, `remove_piece_at`, `discard_piece_at`, `swap_colors`, and
each symmetry transform) preserves, the invariant that the six role
bitboards are pairwise disjoint, the two color bitboards are disjoint, and
the occupied bitboard equals both the union of the role bitboards and the
union of the color bitboards. -/
theorem board_ops_preserve_consistency :
    Board.new.Consistent ∧ Board.empty.Consistent ∧
      (∀ (br : ByRole Bitboard) (bc : ByColor Bitboard) (b : Board),
        Board.try_from_bitboards br bc = .ok b → b.Consistent) ∧
      (∀ (b : Board) (sq : Square) (p : Piece), b.Consistent →
        (b.set_piece_at sq p).Consistent) ∧
      (∀ (b : Board) (sq : Square), b.Consistent →
        (b.remove_piece_at sq).2.Consistent) ∧
      (∀ (b : Board) (sq : Square), b.Consistent →
        (b.discard_piece_at sq).Consistent) ∧
      (∀ b : Board, b.Consistent → b.swap_colors.Consistent) ∧
      (∀ b : Board, b.Consistent → b.flip_vertical.Consistent) ∧
      (∀ b : Board, b.Consistent → b.flip_horizontal.Consistent) ∧
      (∀ b : Board, b.Consistent → b.flip_diagonal.Consistent) ∧
      (∀ b : Board, b.Consistent → b.flip_anti_diagonal.Consistent) ∧
      (∀ b : Board, b.Consistent → b.rotate_90.Consistent) ∧
      (∀ b : Board, b.Consistent → b.rotate_180.Consistent) ∧
      (∀ b : Board, b.Consistent → b.rotate_270.Consistent) :=
  ⟨by decide, by decide,
    fun _ _ _ h => Board.consistent_of_try_from_bitboards h,
    fun _ sq p h => Board.consistent_set_piece_at h sq p,
    fun _ sq h => Board.consistent_remove_piece_at h sq,
    fun _ sq h => Board.consistent_discard h sq,
    fun _ h => Board.consistent_swap_colors h,
    fun _ h => Board.consistent_transform h Board.injective_flipVerticalSq,
    fun _ h => Board.consistent_transform h Board.injective_flipHorizontalSq,
    fun _ h => Board.consistent_transform h Board.injective_flipDiagonalSq,
    fun _ h => Board.consistent_transform h Board.injective_flipAntiDiagonalSq,
    fun _ h => Board.consistent_transform h Board.injective_rotate90Sq,
    fun _ h => Board.consistent_transform h Board.injective_rotate180Sq,
    fun _ h => Board.consistent_transform h Board.injective_rotate270Sq⟩

/-- Witness for C9 at a concrete input: placing a white pawn on a3 on the
starting board, and rotating the starting board, keep the invariant. -/
theorem board_ops_preserve_consistency_witness :
    (Board.new.set_piece_at ⟨16, by decide⟩ ⟨.white, .pawn⟩).Consistent ∧
      Board.new.rotate_90.Consistent :=
  ⟨board_ops_preserve_consistency.2.2.2.1 Board.new ⟨16, by decide⟩
      ⟨.white, .pawn⟩ (by decide),
    board_ops_preserve_consistency.2.2.2.2.2.2.2.2.2.2.2.1 Board.new (by decide)⟩

/-- C10: splitting a consistent board into bitboards and reassembling
round-trips (`try_from_bitboards` of `into_bitboards` returns `Ok` of the
same board), and `try_from_bitboards` returns `Err` exactly when the roles
overlap, the colors overlap, or the union of roles differs from the union
of colors. -/
theorem try_from_bitboards_roundtrip :
    (∀ b : Board, b.Consistent →
        Board.try_from_bitboards b.into_bitboards.1 b.into_bitboards.2 =
          .ok b) ∧
      (∀ (br : ByRole Bitboard) (bc : ByColor Bitboard),
        (∃ e, Board.try_from_bitboards br bc = .error e) ↔
          (¬ Board.PairwiseDisjointRoles br ∨ bc.black ∩ bc.white ≠ ∅ ∨
            Board.rolesUnion br ≠ bc.black ∪ bc.white)) := by
  constructor
  · intro b hb
    obtain ⟨hpd, hbw, hr, hc⟩ := hb
    have h1 := (Board.count_rolesUnion_iff b.by_role).mpr hpd
    have h3 : Board.rolesUnion b.by_role = b.by_color.black ∪ b.by_color.white := by
      rw [← hr]
      exact hc
    simp only [Board.into_bitboards, Board.try_from_bitboards]
    rw [if_neg (by simp [h1]), if_neg (by simp [Bitboard.intersects_const, hbw]),
      if_neg (by simp [Bitboard.with_const, h3]), ← hr]
  · intro br bc
    by_cases h1 : (Board.rolesUnion br).count =
        br.pawn.count + br.knight.count + br.bishop.count + br.rook.count +
          br.queen.count + br.king.count
    · by_cases h2 : bc.black ∩ bc.white = ∅
      · by_cases h3 : Board.rolesUnion br = bc.black ∪ bc.white
        · constructor
          · rintro ⟨e, he⟩
            simp only [Board.try_from_bitboards] at he
            rw [if_neg (by simp [h1]),
              if_neg (by simp [Bitboard.intersects_const, h2]),
              if_neg (by simp [Bitboard.with_const, h3])] at he
            cases he
          · rintro (hA | hB | hC)
            · exact absurd ((Board.count_rolesUnion_iff br).mp h1) hA
            · exact absurd h2 hB
            · exact absurd h3 hC
        · refine iff_of_true ⟨.rolesColorsMismatch, ?_⟩ (.inr (.inr h3))
          simp only [Board.try_from_bitboards]
          rw [if_neg (by simp [h1]),
            if_neg (by simp [Bitboard.intersects_const, h2]),
            if_pos (by simp [Bitboard.with_const, h3])]
      · refine iff_of_true ⟨.colorsOverlap, ?_⟩ (.inr (.inl h2))
        simp only [Board.try_from_bitboards]
        rw [if_neg (by simp [h1]),
          if_pos (by simp [Bitboard.intersects_const, h2])]
    · refine iff_of_true ⟨.rolesOverlap, ?_⟩
        (.inl (fun hpd => h1 ((Board.count_rolesUnion_iff br).mpr hpd)))
      simp only [Board.try_from_bitboards]
      rw [if_pos (by simp [h1])]

/-- Witness for C10 at a concrete input: the starting board round-trips
through `into_bitboards` and `try_from_bitboards`. -/
theorem try_from_bitboards_roundtrip_witness :
    Board.try_from_bitboards Board.new.into_bitboards.1
        Board.new.into_bitboards.2 = .ok Board.new :=
  try_from_bitboards_roundtrip.1 Board.new (by decide)

/-! ### Position encoder (spec §4.5): combinatorial ranking

The encoder of `shakmaty-syzygy` is not under `src/`; it is modelled from
the spec: same-role pieces are ranked as a combination via a strictly
increasing-square encoding with binomial-coefficient ranking, and the
distinguishable groups are combined by a mixed radix. -/

/-- Modelled from the spec: the binomial-coefficient rank of a placement of
identical pieces, given the occupied squares as a strictly decreasing list;
the i-th largest square `m` (with `j` squares below it in the list)
contributes `choose m (j + 1)`. -/
def combRankD : List Nat → Nat
  | [] => 0
  | m :: rest => m.choose (rest.length + 1) + combRankD rest

/-- Modelled from the spec: the rank of a set of squares occupied by
identical pieces (the strictly increasing-square encoding). -/
def subsetRank (s : Finset ℕ) : Nat :=
  combRankD ((s.sort (· ≤ ·)).reverse)

theorem combRankD_lt :
    ∀ (l : List Nat) (n : Nat), l.Sorted (· > ·) → (∀ x ∈ l, x < n) →
      combRankD l < n.choose l.length := by
  intro l
  induction l with
  | nil =>
    intro n _ _
    simp [combRankD]
  | cons m rest ih =>
    intro n hs hlt
    rcases List.sorted_cons.mp hs with ⟨hm, hrest⟩
    have h1 : combRankD rest < m.choose rest.length := ih m hrest hm
    have h2 : m + 1 ≤ n := hlt m (List.mem_cons_self m rest)
    have h3 : combRankD (m :: rest)
        = m.choose (rest.length + 1) + combRankD rest := rfl
    have h4 : (m + 1).choose (rest.length + 1)
        = m.choose rest.length + m.choose (rest.length + 1) :=
      Nat.choose_succ_succ m rest.length
    have h5 : (m + 1).choose (rest.length + 1) ≤ n.choose (rest.length + 1) :=
      Nat.choose_le_choose _ h2
    have h6 : (m :: rest).length = rest.length + 1 := rfl
    rw [h6, h3]
    omega

theorem combRankD_lt_of_head_lt {m₁ m₂ : Nat} {r₁ r₂ : List Nat}
    (hs₁ : (m₁ :: r₁).Sorted (· > ·)) (hlen : r₁.length = r₂.length)
    (hlt : m₁ < m₂) : combRankD (m₁ :: r₁) < combRankD (m₂ :: r₂) := by
  rcases List.sorted_cons.mp hs₁ with ⟨hm, hrest⟩
  have h1 : combRankD r₁ < m₁.choose r₁.length := combRankD_lt r₁ m₁ hrest hm
  have h4 : (m₁ + 1).choose (r₁.length + 1)
      = m₁.choose r₁.length + m₁.choose (r₁.length + 1) :=
    Nat.choose_succ_succ m₁ r₁.length
  have h5 : (m₁ + 1).choose (r₁.length + 1) ≤ m₂.choose (r₁.length + 1) :=
    Nat.choose_le_choose _ hlt
  have h6 : combRankD (m₁ :: r₁)
      = m₁.choose (r₁.length + 1) + combRankD r₁ := rfl
  have h7 : combRankD (m₂ :: r₂)
      = m₂.choose (r₂.length + 1) + combRankD r₂ := rfl
  rw [h6, h7, ← hlen]
  omega

theorem combRankD_inj :
    ∀ (l₁ l₂ : List Nat), l₁.Sorted (· > ·) → l₂.Sorted (· > ·) →
      l₁.length = l₂.length → combRankD l₁ = combRankD l₂ → l₁ = l₂ := by
  intro l₁
  induction l₁ with
  | nil =>
    intro l₂ _ _ hlen _
    cases l₂ with
    | nil => rfl
    | cons m r => cases hlen
  | cons m₁ r₁ ih =>
    intro l₂ hs₁ hs₂ hlen heq
    cases l₂ with
    | nil => cases hlen
    | cons m₂ r₂ =>
      have hlen' : r₁.length = r₂.length := by
        simpa using hlen
      rcases Nat.lt_trichotomy m₁ m₂ with hlt | hmeq | hgt
      · exact absurd heq
          (Nat.ne_of_lt (combRankD_lt_of_head_lt hs₁ hlen' hlt))
      · subst hmeq
        have heq' : combRankD r₁ = combRankD r₂ := by
          have h6 : combRankD (m₁ :: r₁)
              = m₁.choose (r₁.length + 1) + combRankD r₁ := rfl
          have h7 : combRankD (m₁ :: r₂)
              = m₁.choose (r₂.length + 1) + combRankD r₂ := rfl
          rw [h6, h7, ← hlen'] at heq
          omega
        rw [ih r₂ (List.sorted_cons.mp hs₁).2 (List.sorted_cons.mp hs₂).2
          hlen' heq']
      · exact absurd heq.symm
          (Nat.ne_of_lt (combRankD_lt_of_head_lt hs₂ hlen'.symm hgt))

theorem sorted_desc_of_finset (s : Finset ℕ) :
    ((s.sort (· ≤ ·)).reverse).Sorted (· > ·) :=
  List.pairwise_reverse.mpr (Finset.sort_sorted_lt s)

theorem subsetRank_lt {n k : Nat} {s : Finset ℕ}
    (h : s ∈ Finset.powersetCard k (Finset.range n)) :
    subsetRank s < n.choose k := by
  rcases Finset.mem_powersetCard.mp h with ⟨hsub, hcard⟩
  have hlen : ((s.sort (· ≤ ·)).reverse).length = k := by
    rw [List.length_reverse, Finset.length_sort]
    exact hcard
  have hmem : ∀ x ∈ (s.sort (· ≤ ·)).reverse, x < n := by
    intro x hx
    have : x ∈ s := by
      rw [List.mem_reverse, Finset.mem_sort] at hx
      exact hx
    exact Finset.mem_range.mp (hsub this)
  have := combRankD_lt ((s.sort (· ≤ ·)).reverse) n (sorted_desc_of_finset s) hmem
  rw [hlen] at this
  exact this

theorem subsetRank_injOn {n k : Nat} :
    Set.InjOn subsetRank (Finset.powersetCard k (Finset.range n)) := by
  intro s hs t ht heq
  have hs' := Finset.mem_powersetCard.mp hs
  have ht' := Finset.mem_powersetCard.mp ht
  have hlen : ((s.sort (· ≤ ·)).reverse).length
      = ((t.sort (· ≤ ·)).reverse).length := by
    rw [List.length_reverse, Finset.length_sort, List.length_reverse,
      Finset.length_sort, hs'.2, ht'.2]
  have hrev := combRankD_inj _ _ (sorted_desc_of_finset s)
    (sorted_desc_of_finset t) hlen heq
  have hsort : s.sort (· ≤ ·) = t.sort (· ≤ ·) := by
    have := congrArg List.reverse hrev
    simpa using this
  have hst := congrArg List.toFinset hsort
  rwa [Finset.sort_toFinset, Finset.sort_toFinset] at hst

theorem subsetRank_image (n k : Nat) :
    (Finset.powersetCard k (Finset.range n)).image subsetRank =
      Finset.range (n.choose k) := by
  have hsub : (Finset.powersetCard k (Finset.range n)).image subsetRank ⊆
      Finset.range (n.choose k) := by
    intro m hm
    rcases Finset.mem_image.mp hm with ⟨s, hs, rfl⟩
    exact Finset.mem_range.mpr (subsetRank_lt hs)
  have hcard : ((Finset.powersetCard k (Finset.range n)).image subsetRank).card
      = n.choose k := by
    rw [Finset.card_image_of_injOn subsetRank_injOn, Finset.card_powersetCard,
      Finset.card_range]
  exact Finset.eq_of_subset_of_card_le hsub (by rw [hcard, Finset.card_range])

/-- Modelled from the spec: a table's declared index range is the product of
the per-group binomial counts; each group `(n, k)` places `k` identical
pieces on `n` available squares (squares renumbered within each group after
removing those used by earlier groups, which is what makes the groups
independent). -/
def tableSize : List (Nat × Nat) → Nat
  | [] => 1
  | (n, k) :: gs => n.choose k * tableSize gs

/-- Modelled from the spec: the encoder combines the per-group combination
sub-ranks by a mixed radix. -/
def tableEncode : List (Nat × Nat) → List (Finset ℕ) → Nat
  | _, [] => 0
  | [], _ :: _ => 0
  | _ :: gs, s :: ss => subsetRank s * tableSize gs + tableEncode gs ss

/-- Modelled from the spec: the canonical positions of a table's material
configuration, one `k`-subset of the group's `n` squares per group. -/
def tablePositions : List (Nat × Nat) → Finset (List (Finset ℕ))
  | [] => {[]}
  | (n, k) :: gs =>
    (((Finset.range n).powersetCard k) ×ˢ tablePositions gs).image
      (fun p => p.1 :: p.2)

theorem mixedRadix_inj {B r₁ e₁ r₂ e₂ : Nat} (h₁ : e₁ < B) (h₂ : e₂ < B)
    (h : r₁ * B + e₁ = r₂ * B + e₂) : r₁ = r₂ ∧ e₁ = e₂ := by
  have hB : 0 < B := by omega
  have d1 : (r₁ * B + e₁) / B = r₁ := by
    rw [Nat.mul_comm, Nat.mul_add_div hB, Nat.div_eq_of_lt h₁, Nat.add_zero]
  have d2 : (r₂ * B + e₂) / B = r₂ := by
    rw [Nat.mul_comm, Nat.mul_add_div hB, Nat.div_eq_of_lt h₂, Nat.add_zero]
  have hr : r₁ = r₂ := by rw [← d1, ← d2, h]
  subst hr
  exact ⟨rfl, by omega⟩

theorem mem_tablePositions_cons {n k : Nat} {gs : List (Nat × Nat)}
    {l : List (Finset ℕ)} :
    l ∈ tablePositions ((n, k) :: gs) ↔
      ∃ s ss, s ∈ (Finset.range n).powersetCard k ∧
        ss ∈ tablePositions gs ∧ l = s :: ss := by
  simp only [tablePositions, Finset.mem_image, Finset.mem_product]
  constructor
  · rintro ⟨⟨s, ss⟩, ⟨hp, hq⟩, h⟩
    exact ⟨s, ss, hp, hq, h.symm⟩
  · rintro ⟨s, ss, hp, hq, rfl⟩
    exact ⟨(s, ss), ⟨hp, hq⟩, rfl⟩

theorem encode_bij_aux (t : List (Nat × Nat)) :
    Set.InjOn (tableEncode t) (tablePositions t) ∧
      (tablePositions t).image (tableEncode t) =
        Finset.range (tableSize t) := by
  induction t with
  | nil =>
    constructor
    · intro l₁ h₁ l₂ h₂ _
      simp only [tablePositions, Finset.coe_singleton,
        Set.mem_singleton_iff] at h₁ h₂
      rw [h₁, h₂]
    · simp [tablePositions, tableSize, tableEncode]
  | cons g gs ih =>
    obtain ⟨n, k⟩ := g
    obtain ⟨ihInj, ihImg⟩ := ih
    have hBdd : ∀ ss ∈ tablePositions gs, tableEncode gs ss < tableSize gs := by
      intro ss hss
      have : tableEncode gs ss ∈ (tablePositions gs).image (tableEncode gs) :=
        Finset.mem_image_of_mem _ hss
      rw [ihImg] at this
      exact Finset.mem_range.mp this
    constructor
    · intro l₁ h₁ l₂ h₂ heq
      rcases mem_tablePositions_cons.mp (Finset.mem_coe.mp h₁) with
        ⟨s₁, ss₁, hp₁, hq₁, rfl⟩
      rcases mem_tablePositions_cons.mp (Finset.mem_coe.mp h₂) with
        ⟨s₂, ss₂, hp₂, hq₂, rfl⟩
      have heq' : subsetRank s₁ * tableSize gs + tableEncode gs ss₁
          = subsetRank s₂ * tableSize gs + tableEncode gs ss₂ := heq
      obtain ⟨hrank, henc⟩ :=
        mixedRadix_inj (hBdd ss₁ hq₁) (hBdd ss₂ hq₂) heq'
      have hs : s₁ = s₂ := subsetRank_injOn (Finset.mem_coe.mpr hp₁)
        (Finset.mem_coe.mpr hp₂) hrank
      have hss : ss₁ = ss₂ := ihInj (Finset.mem_coe.mpr hq₁)
        (Finset.mem_coe.mpr hq₂) henc
      rw [hs, hss]
    · ext m
      constructor
      · intro hm
        rcases Finset.mem_image.mp hm with ⟨l, hl, rfl⟩
        rcases mem_tablePositions_cons.mp hl with ⟨s, ss, hp, hq, rfl⟩
        have h1 : subsetRank s < n.choose k := subsetRank_lt hp
        have h2 : tableEncode gs ss < tableSize gs := hBdd ss hq
        have henc : tableEncode ((n, k) :: gs) (s :: ss)
            = subsetRank s * tableSize gs + tableEncode gs ss := rfl
        have hts : tableSize ((n, k) :: gs) = n.choose k * tableSize gs := rfl
        rw [Finset.mem_range, hts, henc]
        calc subsetRank s * tableSize gs + tableEncode gs ss
            < (subsetRank s + 1) * tableSize gs := by
              rw [Nat.succ_mul]
              omega
          _ ≤ n.choose k * tableSize gs := Nat.mul_le_mul_right _ h1
      · intro hm
        rw [Finset.mem_range] at hm
        have hts : tableSize ((n, k) :: gs) = n.choose k * tableSize gs := rfl
        rw [hts] at hm
        have hB : 0 < tableSize gs := by
          rcases Nat.eq_zero_or_pos (tableSize gs) with h0 | h0
          · rw [h0, Nat.mul_zero] at hm
            exact absurd hm (Nat.not_lt_zero m)
          · exact h0
        have hr : m / tableSize gs < n.choose k := by
          rw [Nat.div_lt_iff_lt_mul hB]
          exact hm
        have he : m % tableSize gs < tableSize gs := Nat.mod_lt _ hB
        have hrmem : m / tableSize gs ∈
            ((Finset.range n).powersetCard k).image subsetRank := by
          rw [subsetRank_image]
          exact Finset.mem_range.mpr hr
        have hemem : m % tableSize gs ∈
            (tablePositions gs).image (tableEncode gs) := by
          rw [ihImg]
          exact Finset.mem_range.mpr he
        rcases Finset.mem_image.mp hrmem with ⟨s, hs, hsrank⟩
        rcases Finset.mem_image.mp hemem with ⟨ss, hss, hssenc⟩
        refine Finset.mem_image.mpr
          ⟨s :: ss, mem_tablePositions_cons.mpr ⟨s, ss, hs, hss, rfl⟩, ?_⟩
        show subsetRank s * tableSize gs + tableEncode gs ss = m
        rw [hsrank, hssenc, Nat.div_add_mod']

/-- C2 (spec-modelled): for every table, described by its list of piece
groups `(squares, pieces)`, the position encoder is a bijection between the
canonical positions of that table's material configuration and the table's
declared index range: distinct canonical positions get distinct indices,
and every index in `range (tableSize t)` is the image of some canonical
position. -/
theorem encoder_bijection (t : List (Nat × Nat)) :
    Set.InjOn (tableEncode t) (tablePositions t) ∧
      (tablePositions t).image (tableEncode t) = Finset.range (tableSize t) :=
  encode_bij_aux t

/-- Witness for C2 at a concrete table: one group of two identical pieces on
four squares, whose sixteen-minus-ten redundant placements collapse to the
six indices of `range (choose 4 2)`. -/
theorem encoder_bijection_witness :
    (tablePositions [(4, 2)]).image (tableEncode [(4, 2)]) =
      Finset.range 6 :=
  (encoder_bijection [(4, 2)]).2

/-! ### Board symmetries and encoder canonicalization (spec §4.5, C4) -/

/-- Modelled from the spec: the eight board isometries available to the
encoder's canonicalization step. -/
inductive SymT where
  | idT
  | fv
  | fh
  | fd
  | fad
  | r90
  | r180
  | r270
deriving DecidableEq, Repr, Fintype

instance : Nonempty SymT := ⟨.idT⟩

/-- The square permutation of each isometry. -/
def SymT.applySq : SymT → Square → Square
  | .idT => fun sq => sq
  | .fv => flipVerticalSq
  | .fh => flipHorizontalSq
  | .fd => flipDiagonalSq
  | .fad => flipAntiDiagonalSq
  | .r90 => rotate90Sq
  | .r180 => rotate180Sq
  | .r270 => rotate270Sq

/-- All eight isometries. -/
def allSymT : List SymT :=
  [.idT, .fv, .fh, .fd, .fad, .r90, .r180, .r270]

/-- Composition inside the symmetry group, found by searching the eight
elements for the one whose square action is the composite action. -/
def SymT.comp (a b : SymT) : SymT :=
  (allSymT.find? (fun c =>
    decide (∀ sq, c.applySq sq = a.applySq (b.applySq sq)))).getD .idT

theorem SymT.comp_applySq :
    ∀ (a b : SymT) (sq : Square),
      (SymT.comp a b).applySq sq = a.applySq (b.applySq sq) := by
  decide

theorem SymT.comp_surjective :
    ∀ g : SymT, Function.Surjective (fun t => SymT.comp t g) := by
  decide

/-- Applying an isometry to a whole board (every bitboard transformed), as
`Board::transform` does. -/
def applyTransformT (t : SymT) (b : Board) : Board :=
  b.transform (Bitboard.mapSquares t.applySq)

/-- A numeric key identifying a board, used to pick the canonical
orientation of a symmetry orbit. -/
def natOfBitboard (s : Bitboard) : Nat :=
  Finset.sum s (fun sq => 2 ^ sq.val)

/-- Board key: the bitboards of the board combined into one number. -/
def boardKey (b : Board) : Nat :=
  [b.by_role.pawn, b.by_role.knight, b.by_role.bishop, b.by_role.rook,
    b.by_role.queen, b.by_role.king, b.by_color.black,
    b.by_color.white].foldl
    (fun acc s => acc * 18446744073709551616 + natOfBitboard s) 0

/-- Modelled from the spec: the encoder canonicalizes by choosing the board
symmetry that maps the position into the table's reference orientation —
here the orientation with the least board key — so the index depends only
on the symmetry orbit.  Pawnless tables use all eight isometries. -/
def encodeSym (b : Board) : Nat :=
  ((Finset.univ.image (fun t : SymT => boardKey (applyTransformT t b))).min).getD 0

/-- Modelled from the spec: the up-to-4 isometries available when pawns are
present (pawns break the diagonal symmetries). -/
def pawnSyms : Finset SymT := {.idT, .fh, .fv, .r180}

/-- Modelled from the spec: the canonicalized encoder for pawn tables,
restricted to the pawn-preserving isometries. -/
def encodeSymPawn (b : Board) : Nat :=
  ((pawnSyms.image (fun t => boardKey (applyTransformT t b))).min).getD 0

theorem mapSquares_comp (p q : Square → Square) (s : Bitboard) :
    Bitboard.mapSquares p (Bitboard.mapSquares q s) =
      Bitboard.mapSquares (fun x => p (q x)) s := by
  rw [Bitboard.mapSquares, Bitboard.mapSquares, Bitboard.mapSquares,
    Finset.image_image]
  rfl

theorem applyTransformT_comp (t g : SymT) (b : Board) :
    applyTransformT t (applyTransformT g b) =
      applyTransformT (SymT.comp t g) b := by
  have hbb : ∀ s : Bitboard,
      Bitboard.mapSquares t.applySq (Bitboard.mapSquares g.applySq s) =
        Bitboard.mapSquares (SymT.comp t g).applySq s := by
    intro s
    rw [mapSquares_comp]
    exact Finset.image_congr (fun x _ => (SymT.comp_applySq t g x).symm)
  simp [applyTransformT, Board.transform, ByRole.map, ByColor.map, hbb]

theorem pawnSyms_comp_image :
    ∀ g ∈ pawnSyms,
      pawnSyms.image (fun t => SymT.comp t g) = pawnSyms := by
  decide

theorem key_applyT_comp (b : Board) (g t : SymT) :
    boardKey (applyTransformT t (applyTransformT g b)) =
      boardKey (applyTransformT (SymT.comp t g) b) :=
  congrArg boardKey (applyTransformT_comp t g b)

theorem image_key_comp (b : Board) (g : SymT) (S : Finset SymT) :
    S.image (fun t => boardKey (applyTransformT t (applyTransformT g b))) =
      (S.image (fun t => SymT.comp t g)).image
        (fun t => boardKey (applyTransformT t b)) := by
  ext x
  simp only [Finset.mem_image]
  constructor
  · rintro ⟨t, ht, rfl⟩
    exact ⟨SymT.comp t g, ⟨t, ht, rfl⟩, (key_applyT_comp b g t).symm⟩
  · rintro ⟨u, ⟨t, ht, rfl⟩, rfl⟩
    exact ⟨t, ht, key_applyT_comp b g t⟩

/-- C4 (spec-modelled): encoding is symmetry-invariant.  For every board P
and every board-symmetry image P' of P, encoding within the same table
yields the same index — for all eight isometries on pawnless tables, and
for the four pawn-preserving isometries on pawn tables. -/
theorem encode_symmetry_invariant :
    (∀ (b : Board) (g : SymT),
        encodeSym (applyTransformT g b) = encodeSym b) ∧
      (∀ (b : Board) (g : SymT), g ∈ pawnSyms →
        encodeSymPawn (applyTransformT g b) = encodeSymPawn b) := by
  constructor
  · intro b g
    unfold encodeSym
    have hset :
        Finset.univ.image
            (fun t : SymT => boardKey (applyTransformT t (applyTransformT g b))) =
          Finset.univ.image (fun t : SymT => boardKey (applyTransformT t b)) := by
      rw [image_key_comp, Finset.image_univ_of_surjective (SymT.comp_surjective g)]
    rw [hset]
  · intro b g hg
    unfold encodeSymPawn
    have hset :
        pawnSyms.image
            (fun t => boardKey (applyTransformT t (applyTransformT g b))) =
          pawnSyms.image (fun t => boardKey (applyTransformT t b)) := by
      rw [image_key_comp, pawnSyms_comp_image g hg]
    rw [hset]

/-- Witness for C4 at a concrete input: flipping the starting board
vertically (all eight isometries) or horizontally (pawn isometries) does
not change its canonical index. -/
theorem encode_symmetry_invariant_witness :
    encodeSym (applyTransformT .fv Board.new) = encodeSym Board.new ∧
      encodeSymPawn (applyTransformT .fh Board.new) =
        encodeSymPawn Board.new :=
  ⟨encode_symmetry_invariant.1 Board.new .fv,
    encode_symmetry_invariant.2 Board.new .fh (by decide)⟩

/-! ### Probe engine (spec §4.6): WDL/DTZ values and DTZ resolution

The probe engine of `shakmaty-syzygy` is not under `src/`; it is modelled
from the spec: DTZ is read directly for zeroing positions with a matching
DTZ table, and is otherwise resolved by a bounded lookahead over zeroing
and non-zeroing successor moves, with the winner minimizing and the loser
maximizing the distance to zero. -/

/-- The five WDL outcome classes. -/
inductive Wdl where
  | loss
  | blessedLoss
  | draw
  | cursedWin
  | win
deriving DecidableEq, Repr

/-- The signed `i8` value of a WDL class. -/
def Wdl.toInt : Wdl → Int
  | .loss => -2
  | .blessedLoss => -1
  | .draw => 0
  | .cursedWin => 1
  | .win => 2

/-- A DTZ value together with the rounding-ambiguity flag
(`MaybeRounded`). -/
inductive MaybeRounded where
  | precise (v : Int)
  | rounded (v : Int)
deriving DecidableEq, Repr

/-- `MaybeRounded::ignore_rounding`: the DTZ value with the flag
discarded. -/
def MaybeRounded.ignore_rounding : MaybeRounded → Int
  | .precise v => v
  | .rounded v => v

/-- Probe errors distinguished by kind: malformed database data versus a
failure of the Filesystem capability. -/
inductive ProbeError where
  | corruptTable
  | io (code : Nat)
deriving DecidableEq, Repr

/-- The table data the probe engine sees about one position. -/
structure PosData where
  wdl : Wdl
  terminal : Bool
  hasDtzEntry : Bool
  stored : Nat
deriving DecidableEq, Repr

/-- Modelled from the spec: a position as the DTZ resolution sees it — its
WDL class, whether it is a checkmate/stalemate terminal, whether a DTZ
table stores its value directly (zeroing position with exactly matching
material), the stored magnitude, the WDL-after-zeroing outcomes of its
zeroing moves (from the mover's perspective), and its non-zeroing
successors. -/
inductive PPos where
  | node (d : PosData) (zeroWdls : List Wdl) (succs : List PPos)

/-- The table data of a position. -/
def PPos.data : PPos → PosData
  | .node d _ _ => d

/-- Modelled from the spec: `probe_wdl_after_zeroing` interprets the raw
table value of the position directly. -/
def probe_wdl_after_zeroing (p : PPos) : Wdl := p.data.wdl

/-- Maximum of a list of integers, `none` on the empty list. -/
def listMaxI : List Int → Option Int
  | [] => none
  | x :: xs =>
    match listMaxI xs with
    | none => some x
    | some m => some (max x m)

/-- Probe a list of successor positions, collecting their DTZ values (with
rounding flags discarded); any failing probe propagates its error. -/
def probeList (f : PPos → Except ProbeError MaybeRounded) :
    List PPos → Except ProbeError (List Int)
  | [] => .ok []
  | c :: cs =>
    match f c with
    | .error e => .error e
    | .ok v =>
      match probeList f cs with
      | .error e => .error e
      | .ok vs => .ok (v.ignore_rounding :: vs)

/-- Modelled from the spec: `probe_dtz`.  Terminal positions have DTZ 0
without a table lookup; draws have no DTZ (0); zeroing positions with a
matching DTZ table read the stored value directly, signed by the WDL
class; otherwise the value is resolved by a one-ply lookahead bounded by
the distance to a zeroing move (the `fuel`): the winning side takes a
winning zeroing move if one exists (distance 1) and otherwise minimizes
over the win-preserving non-zeroing successors, the losing side maximizes
the distance; cursed/blessed outcomes carry the rounding-ambiguity flag.
Exhausted fuel or a position with no outcome-preserving successor is
corrupt data. -/
def probe_dtz : Nat → PPos → Except ProbeError MaybeRounded
  | 0, _ => .error .corruptTable
  | fuel + 1, .node d zs succs =>
    if d.terminal then .ok (.precise 0)
    else
      match d.wdl with
      | .draw => .ok (.precise 0)
      | .win =>
        if d.hasDtzEntry then .ok (.precise (Int.ofNat d.stored))
        else if zs.contains .win then .ok (.precise 1)
        else
          match probeList (probe_dtz fuel)
              (succs.filter (fun s => decide (s.data.wdl = Wdl.loss))) with
          | .error e => .error e
          | .ok vs =>
            match listMaxI vs with
            | none => .error .corruptTable
            | some m => .ok (.precise (1 - m))
      | .cursedWin =>
        if d.hasDtzEntry then .ok (.rounded (Int.ofNat d.stored))
        else if zs.contains .cursedWin then .ok (.rounded 1)
        else
          match probeList (probe_dtz fuel)
              (succs.filter (fun s => decide (s.data.wdl = Wdl.blessedLoss))) with
          | .error e => .error e
          | .ok vs =>
            match listMaxI vs with
            | none => .error .corruptTable
            | some m => .ok (.rounded (1 - m))
      | .loss =>
        if d.hasDtzEntry then .ok (.precise (-(Int.ofNat d.stored)))
        else
          match probeList (probe_dtz fuel)
              (succs.filter (fun s => decide (s.data.wdl = Wdl.win))) with
          | .error e => .error e
          | .ok vs =>
            match listMaxI (if zs.contains .loss then (0 : Int) :: vs else vs) with
            | none => .error .corruptTable
            | some m => .ok (.precise (-(1 + m)))
      | .blessedLoss =>
        if d.hasDtzEntry then .ok (.rounded (-(Int.ofNat d.stored)))
        else
          match probeList (probe_dtz fuel)
              (succs.filter (fun s => decide (s.data.wdl = Wdl.cursedWin))) with
          | .error e => .error e
          | .ok vs =>
            match listMaxI
                (if zs.contains .blessedLoss then (0 : Int) :: vs else vs) with
            | none => .error .corruptTable
            | some m => .ok (.rounded (-(1 + m)))

/-- Well-formedness of the table data: a stored DTZ magnitude for a decided
(non-draw) position is at least one ply, recursively for all
successors. -/
inductive TWF : PPos → Prop
  | node {d : PosData} {zs : List Wdl} {succs : List PPos}
      (hstored : d.hasDtzEntry = true → d.wdl ≠ .draw → 1 ≤ d.stored)
      (hsuccs : ∀ s ∈ succs, TWF s) : TWF (.node d zs succs)

/-- The sign convention a DTZ value must satisfy for a given WDL class. -/
def signProp (w : Wdl) (terminal : Bool) (v : Int) : Prop :=
  match w with
  | .win => 0 < v ∨ (terminal = true ∧ v = 0)
  | .cursedWin => 0 < v ∨ (terminal = true ∧ v = 0)
  | .draw => v = 0
  | .loss => v < 0 ∨ (terminal = true ∧ v = 0)
  | .blessedLoss => v < 0 ∨ (terminal = true ∧ v = 0)

theorem listMaxI_spec :
    ∀ (l : List Int) (m : Int), listMaxI l = some m →
      m ∈ l ∧ ∀ x ∈ l, x ≤ m := by
  intro l
  induction l with
  | nil =>
    intro m h
    cases h
  | cons x xs ih =>
    intro m h
    simp only [listMaxI] at h
    cases hxs : listMaxI xs with
    | none =>
      rw [hxs] at h
      cases h
      refine ⟨List.mem_cons_self _ _, ?_⟩
      intro y hy
      rcases List.mem_cons.mp hy with rfl | hy'
      · exact le_refl _
      · cases xs with
        | nil => cases hy'
        | cons a l =>
          simp only [listMaxI] at hxs
          cases h3 : listMaxI l <;> rw [h3] at hxs <;> cases hxs
    | some mx =>
      rw [hxs] at h
      cases h
      obtain ⟨hmem, hle⟩ := ih mx hxs
      constructor
      · rcases max_choice x mx with he | he
        · rw [he]
          exact List.mem_cons_self _ _
        · rw [he]
          exact List.mem_cons_of_mem _ hmem
      · intro y hy
        rcases List.mem_cons.mp hy with rfl | hy'
        · exact le_max_left _ _
        · exact le_trans (hle y hy') (le_max_right _ _)

theorem probeList_ok_mem {f : PPos → Except ProbeError MaybeRounded} :
    ∀ {cs : List PPos} {vs : List Int}, probeList f cs = .ok vs →
      ∀ v ∈ vs, ∃ c ∈ cs, ∃ mr, f c = .ok mr ∧ v = mr.ignore_rounding := by
  intro cs
  induction cs with
  | nil =>
    intro vs h v hv
    simp only [probeList] at h
    cases h
    exact absurd hv (List.not_mem_nil v)
  | cons c cs ih =>
    intro vs h v hv
    simp only [probeList] at h
    cases hfc : f c with
    | error e =>
      rw [hfc] at h
      cases h
    | ok mr =>
      rw [hfc] at h
      cases hrest : probeList f cs with
      | error e =>
        rw [hrest] at h
        cases h
      | ok vs' =>
        rw [hrest] at h
        cases h
        rcases List.mem_cons.mp hv with rfl | hv'
        · exact ⟨c, List.mem_cons_self _ _, mr, hfc, rfl⟩
        · rcases ih hrest v hv' with ⟨c', hc', mr', hfc', hveq⟩
          exact ⟨c', List.mem_cons_of_mem _ hc', mr', hfc', hveq⟩

theorem probeList_error_mem {f : PPos → Except ProbeError MaybeRounded} :
    ∀ {cs : List PPos} {e : ProbeError}, probeList f cs = .error e →
      ∃ c ∈ cs, f c = .error e := by
  intro cs
  induction cs with
  | nil =>
    intro e h
    simp only [probeList] at h
    cases h
  | cons c cs ih =>
    intro e h
    simp only [probeList] at h
    cases hfc : f c with
    | error e' =>
      rw [hfc] at h
      cases h
      exact ⟨c, List.mem_cons_self _ _, hfc⟩
    | ok mr =>
      rw [hfc] at h
      cases hrest : probeList f cs with
      | error e' =>
        rw [hrest] at h
        cases h
        rcases ih hrest with ⟨c', hc', hfc'⟩
        exact ⟨c', List.mem_cons_of_mem _ hc', hfc'⟩
      | ok vs' =>
        rw [hrest] at h
        cases h

theorem probe_dtz_sign :
    ∀ (fuel : Nat) (p : PPos) (m : MaybeRounded), TWF p →
      probe_dtz fuel p = .ok m →
      signProp p.data.wdl p.data.terminal m.ignore_rounding := by
  intro fuel
  induction fuel with
  | zero =>
    intro p m _ h
    cases p with
    | node d zs succs =>
      simp only [probe_dtz] at h
      cases h
  | succ fuel ih =>
    rintro ⟨⟨w, term, dz, st⟩, zs, succs⟩ m hwf hok
    cases hwf with
    | node hstored hsuccs =>
      simp only [PPos.data] at hstored ⊢
      cases term with
      | true =>
        have hok' : (Except.ok (MaybeRounded.precise 0) :
            Except ProbeError MaybeRounded) = .ok m := hok
        cases hok'
        cases w
        · exact Or.inr ⟨rfl, rfl⟩
        · exact Or.inr ⟨rfl, rfl⟩
        · exact rfl
        · exact Or.inr ⟨rfl, rfl⟩
        · exact Or.inr ⟨rfl, rfl⟩
      | false =>
        cases w with
        | draw =>
          have hok' : (Except.ok (MaybeRounded.precise 0) :
              Except ProbeError MaybeRounded) = .ok m := hok
          cases hok'
          exact rfl
        | win =>
          cases dz with
          | true =>
            have hok' : (Except.ok (MaybeRounded.precise (Int.ofNat st)) :
                Except ProbeError MaybeRounded) = .ok m := hok
            cases hok'
            have h1 : 1 ≤ st := hstored rfl (by decide)
            show (0 : Int) < (st : Int) ∨
              ((false : Bool) = true ∧ (st : Int) = 0)
            left
            omega
          | false =>
            have hok' : (if zs.contains Wdl.win = true then
                  (Except.ok (MaybeRounded.precise 1) :
                    Except ProbeError MaybeRounded)
                else
                  match probeList (probe_dtz fuel)
                      (succs.filter
                        (fun s => decide (s.data.wdl = Wdl.loss))) with
                  | .error e => .error e
                  | .ok vs =>
                    match listMaxI vs with
                    | none => .error .corruptTable
                    | some mx => .ok (.precise (1 - mx))) = .ok m := hok
            clear hok
            by_cases hzw : zs.contains Wdl.win = true
            · rw [if_pos hzw] at hok'
              cases hok'
              show (0 : Int) < 1 ∨ ((false : Bool) = true ∧ (1 : Int) = 0)
              left
              omega
            · rw [if_neg hzw] at hok'
              cases hpl : probeList (probe_dtz fuel)
                  (succs.filter (fun s => decide (s.data.wdl = Wdl.loss))) with
              | error e =>
                rw [hpl] at hok'
                cases hok'
              | ok vs =>
                rw [hpl] at hok'
                have hok2 : (match listMaxI vs with
                    | none => (Except.error ProbeError.corruptTable :
                        Except ProbeError MaybeRounded)
                    | some mx => .ok (.precise (1 - mx))) = .ok m := hok'
                clear hok'
                cases hmx : listMaxI vs with
                | none =>
                  rw [hmx] at hok2
                  cases hok2
                | some mx =>
                  rw [hmx] at hok2
                  cases hok2
                  obtain ⟨hmem, _⟩ := listMaxI_spec _ mx hmx
                  rcases probeList_ok_mem hpl mx hmem with
                    ⟨c, hc, mr, hfc, hveq⟩
                  have hcf := List.mem_filter.mp hc
                  have hcw : c.data.wdl = .loss := of_decide_eq_true hcf.2
                  have hsign := ih c mr (hsuccs c hcf.1) hfc
                  rw [hcw] at hsign
                  have hsign' : mr.ignore_rounding < 0 ∨
                      (c.data.terminal = true ∧ mr.ignore_rounding = 0) := hsign
                  show (0 : Int) < 1 - mx ∨
                    ((false : Bool) = true ∧ (1 : Int) - mx = 0)
                  left
                  rcases hsign' with h | h <;> omega
        | cursedWin =>
          cases dz with
          | true =>
            have hok' : (Except.ok (MaybeRounded.rounded (Int.ofNat st)) :
                Except ProbeError MaybeRounded) = .ok m := hok
            cases hok'
            have h1 : 1 ≤ st := hstored rfl (by decide)
            show (0 : Int) < (st : Int) ∨
              ((false : Bool) = true ∧ (st : Int) = 0)
            left
            omega
          | false =>
            have hok' : (if zs.contains Wdl.cursedWin = true then
                  (Except.ok (MaybeRounded.rounded 1) :
                    Except ProbeError MaybeRounded)
                else
                  match probeList (probe_dtz fuel)
                      (succs.filter
                        (fun s => decide (s.data.wdl = Wdl.blessedLoss))) with
                  | .error e => .error e
                  | .ok vs =>
                    match listMaxI vs with
                    | none => .error .corruptTable
                    | some mx => .ok (.rounded (1 - mx))) = .ok m := hok
            clear hok
            by_cases hzw : zs.contains Wdl.cursedWin = true
            · rw [if_pos hzw] at hok'
              cases hok'
              show (0 : Int) < 1 ∨ ((false : Bool) = true ∧ (1 : Int) = 0)
              left
              omega
            · rw [if_neg hzw] at hok'
              cases hpl : probeList (probe_dtz fuel)
                  (succs.filter (fun s => decide (s.data.wdl = Wdl.blessedLoss))) with
              | error e =>
                rw [hpl] at hok'
                cases hok'
              | ok vs =>
                rw [hpl] at hok'
                have hok2 : (match listMaxI vs with
                    | none => (Except.error ProbeError.corruptTable :
                        Except ProbeError MaybeRounded)
                    | some mx => .ok (.rounded (1 - mx))) = .ok m := hok'
                clear hok'
                cases hmx : listMaxI vs with
                | none =>
                  rw [hmx] at hok2
                  cases hok2
                | some mx =>
                  rw [hmx] at hok2
                  cases hok2
                  obtain ⟨hmem, _⟩ := listMaxI_spec _ mx hmx
                  rcases probeList_ok_mem hpl mx hmem with
                    ⟨c, hc, mr, hfc, hveq⟩
                  have hcf := List.mem_filter.mp hc
                  have hcw : c.data.wdl = .blessedLoss := of_decide_eq_true hcf.2
                  have hsign := ih c mr (hsuccs c hcf.1) hfc
                  rw [hcw] at hsign
                  have hsign' : mr.ignore_rounding < 0 ∨
                      (c.data.terminal = true ∧ mr.ignore_rounding = 0) := hsign
                  show (0 : Int) < 1 - mx ∨
                    ((false : Bool) = true ∧ (1 : Int) - mx = 0)
                  left
                  rcases hsign' with h | h <;> omega
        | loss =>
          cases dz with
          | true =>
            have hok' : (Except.ok (MaybeRounded.precise (-(Int.ofNat st))) :
                Except ProbeError MaybeRounded) = .ok m := hok
            cases hok'
            have h1 : 1 ≤ st := hstored rfl (by decide)
            show -(st : Int) < 0 ∨
              ((false : Bool) = true ∧ -(st : Int) = 0)
            left
            omega
          | false =>
            have hok' : (match probeList (probe_dtz fuel)
                  (succs.filter
                    (fun s => decide (s.data.wdl = Wdl.win))) with
                | .error e => (.error e : Except ProbeError MaybeRounded)
                | .ok vs =>
                  match listMaxI
                      (if zs.contains Wdl.loss = true then (0 : Int) :: vs
                        else vs) with
                  | none => .error .corruptTable
                  | some mx => .ok (.precise (-(1 + mx)))) = .ok m := hok
            clear hok
            cases hpl : probeList (probe_dtz fuel)
                (succs.filter (fun s => decide (s.data.wdl = Wdl.win))) with
            | error e =>
              rw [hpl] at hok'
              cases hok'
            | ok vs =>
              rw [hpl] at hok'
              have hok2 : (match listMaxI
                    (if zs.contains Wdl.loss = true then (0 : Int) :: vs
                      else vs) with
                  | none => (Except.error ProbeError.corruptTable :
                      Except ProbeError MaybeRounded)
                  | some mx => .ok (.precise (-(1 + mx)))) = .ok m := hok'
              clear hok'
              have hge : ∀ x ∈ vs, (0 : Int) ≤ x := by
                intro x hx
                rcases probeList_ok_mem hpl x hx with ⟨c, hc, mr, hfc, hveq⟩
                have hcf := List.mem_filter.mp hc
                have hcw : c.data.wdl = .win := of_decide_eq_true hcf.2
                have hsign := ih c mr (hsuccs c hcf.1) hfc
                rw [hcw] at hsign
                have hsign' : 0 < mr.ignore_rounding ∨
                    (c.data.terminal = true ∧ mr.ignore_rounding = 0) := hsign
                rcases hsign' with h | h <;> omega
              cases hmx : listMaxI
                  (if zs.contains Wdl.loss = true then (0 : Int) :: vs
                    else vs) with
              | none =>
                rw [hmx] at hok2
                cases hok2
              | some mx =>
                rw [hmx] at hok2
                cases hok2
                obtain ⟨hmem, _⟩ := listMaxI_spec _ mx hmx
                have hmx0 : (0 : Int) ≤ mx := by
                  by_cases hzl : zs.contains Wdl.loss = true
                  · rw [if_pos hzl] at hmem
                    rcases List.mem_cons.mp hmem with rfl | hmem'
                    · exact le_refl _
                    · exact hge mx hmem'
                  · rw [if_neg hzl] at hmem
                    exact hge mx hmem
                show -(1 + mx) < 0 ∨
                  ((false : Bool) = true ∧ -(1 + mx) = (0 : Int))
                left
                omega
        | blessedLoss =>
          cases dz with
          | true =>
            have hok' : (Except.ok (MaybeRounded.rounded (-(Int.ofNat st))) :
                Except ProbeError MaybeRounded) = .ok m := hok
            cases hok'
            have h1 : 1 ≤ st := hstored rfl (by decide)
            show -(st : Int) < 0 ∨
              ((false : Bool) = true ∧ -(st : Int) = 0)
            left
            omega
          | false =>
            have hok' : (match probeList (probe_dtz fuel)
                  (succs.filter
                    (fun s => decide (s.data.wdl = Wdl.cursedWin))) with
                | .error e => (.error e : Except ProbeError MaybeRounded)
                | .ok vs =>
                  match listMaxI
                      (if zs.contains Wdl.blessedLoss = true then (0 : Int) :: vs
                        else vs) with
                  | none => .error .corruptTable
                  | some mx => .ok (.rounded (-(1 + mx)))) = .ok m := hok
            clear hok
            cases hpl : probeList (probe_dtz fuel)
                (succs.filter (fun s => decide (s.data.wdl = Wdl.cursedWin))) with
            | error e =>
              rw [hpl] at hok'
              cases hok'
            | ok vs =>
              rw [hpl] at hok'
              have hok2 : (match listMaxI
                    (if zs.contains Wdl.blessedLoss = true then (0 : Int) :: vs
                      else vs) with
                  | none => (Except.error ProbeError.corruptTable :
                      Except ProbeError MaybeRounded)
                  | some mx => .ok (.rounded (-(1 + mx)))) = .ok m := hok'
              clear hok'
              have hge : ∀ x ∈ vs, (0 : Int) ≤ x := by
                intro x hx
                rcases probeList_ok_mem hpl x hx with ⟨c, hc, mr, hfc, hveq⟩
                have hcf := List.mem_filter.mp hc
                have hcw : c.data.wdl = .cursedWin := of_decide_eq_true hcf.2
                have hsign := ih c mr (hsuccs c hcf.1) hfc
                rw [hcw] at hsign
                have hsign' : 0 < mr.ignore_rounding ∨
                    (c.data.terminal = true ∧ mr.ignore_rounding = 0) := hsign
                rcases hsign' with h | h <;> omega
              cases hmx : listMaxI
                  (if zs.contains Wdl.blessedLoss = true then (0 : Int) :: vs
                    else vs) with
              | none =>
                rw [hmx] at hok2
                cases hok2
              | some mx =>
                rw [hmx] at hok2
                cases hok2
                obtain ⟨hmem, _⟩ := listMaxI_spec _ mx hmx
                have hmx0 : (0 : Int) ≤ mx := by
                  by_cases hzl : zs.contains Wdl.blessedLoss = true
                  · rw [if_pos hzl] at hmem
                    rcases List.mem_cons.mp hmem with rfl | hmem'
                    · exact le_refl _
                    · exact hge mx hmem'
                  · rw [if_neg hzl] at hmem
                    exact hge mx hmem
                show -(1 + mx) < 0 ∨
                  ((false : Bool) = true ∧ -(1 + mx) = (0 : Int))
                left
                omega

/-- C3 (spec-modelled): `probe_wdl_after_zeroing` and `probe_dtz` agree in
sign convention: for every position whose WDL from the side to move is
`Win`, whenever a DTZ value is resolvable (`probe_dtz` returns a value),
that value is strictly greater than 0, or exactly 0 at an already-decided
terminal state. -/
theorem probe_dtz_win_positive (fuel : Nat) (p : PPos) (m : MaybeRounded)
    (hwf : TWF p) (hwin : probe_wdl_after_zeroing p = .win)
    (hok : probe_dtz fuel p = .ok m) :
    0 < m.ignore_rounding ∨
      (p.data.terminal = true ∧ m.ignore_rounding = 0) := by
  have h := probe_dtz_sign fuel p m hwf hok
  rw [probe_wdl_after_zeroing] at hwin
  rw [hwin] at h
  exact h

/-- Witness for C3 at a concrete input: a winning zeroing position with a
stored DTZ of three plies probes to a positive DTZ. -/
theorem probe_dtz_win_positive_witness :
    0 < (MaybeRounded.precise 3).ignore_rounding ∨
      ((PPos.node ⟨.win, false, true, 3⟩ [] []).data.terminal = true ∧
        (MaybeRounded.precise 3).ignore_rounding = 0) :=
  probe_dtz_win_positive 1 (.node ⟨.win, false, true, 3⟩ [] []) (.precise 3)
    (TWF.node (by decide) (fun s hs => absurd hs (List.not_mem_nil s)))
    rfl rfl

theorem probe_dtz_ok_rounded :
    ∀ (fuel : Nat) (p : PPos) (m : MaybeRounded),
      probe_dtz fuel p = .ok m →
      (p.data.wdl = .cursedWin ∨ p.data.wdl = .blessedLoss) →
      p.data.terminal = false →
      m = .rounded m.ignore_rounding := by
  rintro fuel ⟨⟨w, term, dz, st⟩, zs, succs⟩ m hok hwdl hterm
  simp only [PPos.data] at hwdl hterm
  subst hterm
  cases fuel with
  | zero =>
    simp only [probe_dtz] at hok
    cases hok
  | succ fuel =>
    rcases hwdl with rfl | rfl
    · cases dz with
      | true =>
        have hok' : (Except.ok (MaybeRounded.rounded (Int.ofNat st)) :
            Except ProbeError MaybeRounded) = .ok m := hok
        cases hok'
        rfl
      | false =>
        have hok' : (if zs.contains Wdl.cursedWin = true then
              (Except.ok (MaybeRounded.rounded 1) :
                Except ProbeError MaybeRounded)
            else
              match probeList (probe_dtz fuel)
                  (succs.filter
                    (fun s => decide (s.data.wdl = Wdl.blessedLoss))) with
              | .error e => .error e
              | .ok vs =>
                match listMaxI vs with
                | none => .error .corruptTable
                | some mx => .ok (.rounded (1 - mx))) = .ok m := hok
        clear hok
        by_cases hzw : zs.contains Wdl.cursedWin = true
        · rw [if_pos hzw] at hok'
          cases hok'
          rfl
        · rw [if_neg hzw] at hok'
          cases hpl : probeList (probe_dtz fuel)
              (succs.filter
                (fun s => decide (s.data.wdl = Wdl.blessedLoss))) with
          | error e =>
            rw [hpl] at hok'
            cases hok'
          | ok vs =>
            rw [hpl] at hok'
            have hok2 : (match listMaxI vs with
                | none => (Except.error ProbeError.corruptTable :
                    Except ProbeError MaybeRounded)
                | some mx => .ok (.rounded (1 - mx))) = .ok m := hok'
            clear hok'
            cases hmx : listMaxI vs with
            | none =>
              rw [hmx] at hok2
              cases hok2
            | some mx =>
              rw [hmx] at hok2
              cases hok2
              rfl
    · cases dz with
      | true =>
        have hok' : (Except.ok (MaybeRounded.rounded (-(Int.ofNat st))) :
            Except ProbeError MaybeRounded) = .ok m := hok
        cases hok'
        rfl
      | false =>
        have hok' : (match probeList (probe_dtz fuel)
              (succs.filter
                (fun s => decide (s.data.wdl = Wdl.cursedWin))) with
            | .error e => (.error e : Except ProbeError MaybeRounded)
            | .ok vs =>
              match listMaxI
                  (if zs.contains Wdl.blessedLoss = true then (0 : Int) :: vs
                    else vs) with
              | none => .error .corruptTable
              | some mx => .ok (.rounded (-(1 + mx)))) = .ok m := hok
        clear hok
        cases hpl : probeList (probe_dtz fuel)
            (succs.filter (fun s => decide (s.data.wdl = Wdl.cursedWin))) with
        | error e =>
          rw [hpl] at hok'
          cases hok'
        | ok vs =>
          rw [hpl] at hok'
          have hok2 : (match listMaxI
                (if zs.contains Wdl.blessedLoss = true then (0 : Int) :: vs
                  else vs) with
              | none => (Except.error ProbeError.corruptTable :
                  Except ProbeError MaybeRounded)
              | some mx => .ok (.rounded (-(1 + mx)))) = .ok m := hok'
          clear hok'
          cases hmx : listMaxI
              (if zs.contains Wdl.blessedLoss = true then (0 : Int) :: vs
                else vs) with
          | none =>
            rw [hmx] at hok2
            cases hok2
          | some mx =>
            rw [hmx] at hok2
            cases hok2
            rfl

theorem probe_dtz_error_corrupt :
    ∀ (fuel : Nat) (p : PPos) (e : ProbeError),
      probe_dtz fuel p = .error e → e = .corruptTable := by
  intro fuel
  induction fuel with
  | zero =>
    rintro ⟨d, zs, succs⟩ e h
    simp only [probe_dtz] at h
    cases h
    rfl
  | succ fuel ih =>
    rintro ⟨⟨w, term, dz, st⟩, zs, succs⟩ e hok
    cases term with
    | true =>
      have hok' : (Except.ok (MaybeRounded.precise 0) :
          Except ProbeError MaybeRounded) = .error e := hok
      cases hok'
    | false =>
      cases w with
      | draw =>
        have hok' : (Except.ok (MaybeRounded.precise 0) :
            Except ProbeError MaybeRounded) = .error e := hok
        cases hok'
      | win =>
        cases dz with
        | true =>
          have hok' : (Except.ok (MaybeRounded.precise (Int.ofNat st)) :
              Except ProbeError MaybeRounded) = .error e := hok
          cases hok'
        | false =>
          have hok' : (if zs.contains Wdl.win = true then
                (Except.ok (MaybeRounded.precise 1) :
                  Except ProbeError MaybeRounded)
              else
                match probeList (probe_dtz fuel)
                    (succs.filter
                      (fun s => decide (s.data.wdl = Wdl.loss))) with
                | .error e => .error e
                | .ok vs =>
                  match listMaxI vs with
                  | none => .error .corruptTable
                  | some mx => .ok (.precise (1 - mx))) = .error e := hok
          clear hok
          by_cases hzw : zs.contains Wdl.win = true
          · rw [if_pos hzw] at hok'
            cases hok'
          · rw [if_neg hzw] at hok'
            cases hpl : probeList (probe_dtz fuel)
                (succs.filter
                  (fun s => decide (s.data.wdl = Wdl.loss))) with
            | error e2 =>
              rw [hpl] at hok'
              cases hok'
              rcases probeList_error_mem hpl with ⟨c, hc, hfc⟩
              exact ih c e hfc
            | ok vs =>
              rw [hpl] at hok'
              have hok2 : (match listMaxI vs with
                  | none => (Except.error ProbeError.corruptTable :
                      Except ProbeError MaybeRounded)
                  | some mx => .ok (.precise (1 - mx))) = .error e := hok'
              clear hok'
              cases hmx : listMaxI vs with
              | none =>
                rw [hmx] at hok2
                cases hok2
                rfl
              | some mx =>
                rw [hmx] at hok2
                cases hok2
      | cursedWin =>
        cases dz with
        | true =>
          have hok' : (Except.ok (MaybeRounded.rounded (Int.ofNat st)) :
              Except ProbeError MaybeRounded) = .error e := hok
          cases hok'
        | false =>
          have hok' : (if zs.contains Wdl.cursedWin = true then
                (Except.ok (MaybeRounded.rounded 1) :
                  Except ProbeError MaybeRounded)
              else
                match probeList (probe_dtz fuel)
                    (succs.filter
                      (fun s => decide (s.data.wdl = Wdl.blessedLoss))) with
                | .error e => .error e
                | .ok vs =>
                  match listMaxI vs with
                  | none => .error .corruptTable
                  | some mx => .ok (.rounded (1 - mx))) = .error e := hok
          clear hok
          by_cases hzw : zs.contains Wdl.cursedWin = true
          · rw [if_pos hzw] at hok'
            cases hok'
          · rw [if_neg hzw] at hok'
            cases hpl : probeList (probe_dtz fuel)
                (succs.filter
                  (fun s => decide (s.data.wdl = Wdl.blessedLoss))) with
            | error e2 =>
              rw [hpl] at hok'
              cases hok'
              rcases probeList_error_mem hpl with ⟨c, hc, hfc⟩
              exact ih c e hfc
            | ok vs =>
              rw [hpl] at hok'
              have hok2 : (match listMaxI vs with
                  | none => (Except.error ProbeError.corruptTable :
                      Except ProbeError MaybeRounded)
                  | some mx => .ok (.rounded (1 - mx))) = .error e := hok'
              clear hok'
              cases hmx : listMaxI vs with
              | none =>
                rw [hmx] at hok2
                cases hok2
                rfl
              | some mx =>
                rw [hmx] at hok2
                cases hok2
      | loss =>
        cases dz with
        | true =>
          have hok' : (Except.ok (MaybeRounded.precise (-(Int.ofNat st))) :
              Except ProbeError MaybeRounded) = .error e := hok
          cases hok'
        | false =>
          have hok' : (match probeList (probe_dtz fuel)
                (succs.filter
                  (fun s => decide (s.data.wdl = Wdl.win))) with
              | .error e => (.error e : Except ProbeError MaybeRounded)
              | .ok vs =>
                match listMaxI
                    (if zs.contains Wdl.loss = true then (0 : Int) :: vs
                      else vs) with
                | none => .error .corruptTable
                | some mx => .ok (.precise (-(1 + mx)))) = .error e := hok
          clear hok
          cases hpl : probeList (probe_dtz fuel)
              (succs.filter (fun s => decide (s.data.wdl = Wdl.win))) with
          | error e2 =>
            rw [hpl] at hok'
            cases hok'
            rcases probeList_error_mem hpl with ⟨c, hc, hfc⟩
            exact ih c e hfc
          | ok vs =>
            rw [hpl] at hok'
            have hok2 : (match listMaxI
                  (if zs.contains Wdl.loss = true then (0 : Int) :: vs
                    else vs) with
                | none => (Except.error ProbeError.corruptTable :
                    Except ProbeError MaybeRounded)
                | some mx => .ok (.precise (-(1 + mx)))) = .error e := hok'
            clear hok'
            cases hmx : listMaxI
                (if zs.contains Wdl.loss = true then (0 : Int) :: vs
                  else vs) with
            | none =>
              rw [hmx] at hok2
              cases hok2
              rfl
            | some mx =>
              rw [hmx] at hok2
              cases hok2
      | blessedLoss =>
        cases dz with
        | true =>
          have hok' : (Except.ok (MaybeRounded.rounded (-(Int.ofNat st))) :
              Except ProbeError MaybeRounded) = .error e := hok
          cases hok'
        | false =>
          have hok' : (match probeList (probe_dtz fuel)
                (succs.filter
                  (fun s => decide (s.data.wdl = Wdl.cursedWin))) with
              | .error e => (.error e : Except ProbeError MaybeRounded)
              | .ok vs =>
                match listMaxI
                    (if zs.contains Wdl.blessedLoss = true then (0 : Int) :: vs
                      else vs) with
                | none => .error .corruptTable
                | some mx => .ok (.rounded (-(1 + mx)))) = .error e := hok
          clear hok
          cases hpl : probeList (probe_dtz fuel)
              (succs.filter (fun s => decide (s.data.wdl = Wdl.cursedWin))) with
          | error e2 =>
            rw [hpl] at hok'
            cases hok'
            rcases probeList_error_mem hpl with ⟨c, hc, hfc⟩
            exact ih c e hfc
          | ok vs =>
            rw [hpl] at hok'
            have hok2 : (match listMaxI
                  (if zs.contains Wdl.blessedLoss = true then (0 : Int) :: vs
                    else vs) with
                | none => (Except.error ProbeError.corruptTable :
                    Except ProbeError MaybeRounded)
                | some mx => .ok (.rounded (-(1 + mx)))) = .error e := hok'
            clear hok'
            cases hmx : listMaxI
                (if zs.contains Wdl.blessedLoss = true then (0 : Int) :: vs
                  else vs) with
            | none =>
              rw [hmx] at hok2
              cases hok2
              rfl
            | some mx =>
              rw [hmx] at hok2
              cases hok2

/-- C6 (spec-modelled): when fifty-move-rule rounding prevents `probe_dtz`
from determining an exact ply count (cursed-win or blessed-loss outcomes
away from terminal positions), the result is a successfully returned DTZ
value carrying the rounding-ambiguity flag, readable by discarding the
flag via `ignore_rounding` — never a hard error: the error channel of
`probe_dtz` only ever carries `CorruptTable`. -/
theorem dtz_rounding_flagged :
    (∀ (fuel : Nat) (p : PPos) (m : MaybeRounded),
        probe_dtz fuel p = .ok m →
        (p.data.wdl = .cursedWin ∨ p.data.wdl = .blessedLoss) →
        p.data.terminal = false →
        m = .rounded m.ignore_rounding) ∧
      (∀ (fuel : Nat) (p : PPos) (e : ProbeError),
        probe_dtz fuel p = .error e → e = .corruptTable) :=
  ⟨probe_dtz_ok_rounded, probe_dtz_error_corrupt⟩

/-- Witness for C6 at a concrete input: a cursed-win zeroing position with
stored magnitude five probes to a flagged (rounded) value. -/
theorem dtz_rounding_flagged_witness :
    (MaybeRounded.rounded 5) =
      .rounded ((MaybeRounded.rounded 5).ignore_rounding) :=
  dtz_rounding_flagged.1 1 (.node ⟨.cursedWin, false, true, 5⟩ [] [])
    (.rounded 5) rfl (Or.inl rfl) rfl

/-! ### Header parsing over untrusted bytes (spec §4.3, C1)

The header parser of `shakmaty-syzygy` is not under `src/`; only its fuzz
target (`fuzz_targets/syzygy_pawnful.rs`) is.  The parser is modelled from
the spec: every byte access is bounds-checked against the file contents, a
bad magic, a declared size inconsistent with the actual size, or a
code-length table violating monotonicity fails with `CorruptTable`, and a
handle is installed only after the whole parse succeeded. -/

/-- Read one byte of the file; a read beyond the end of the data is corrupt
data (the model's reads can never go out of bounds). -/
def readByte (data : List Nat) (i : Nat) : Except ProbeError Nat :=
  match data.get? i with
  | some b => .ok b
  | none => .error .corruptTable

/-- The magic bytes of a WDL table file. -/
def WDL_MAGIC : List Nat := [0x71, 0xe8, 0x23, 0x5d]

/-- Parsed header metadata. -/
structure TableHeader where
  hasPawns : Bool
  numGroups : Nat
  declaredSize : Nat
deriving DecidableEq, Repr

/-- Monotonicity of the code-length table (canonical prefix code
requirement). -/
def lensMonotone : List Nat → Bool
  | [] => true
  | [_] => true
  | a :: b :: rest => decide (a ≤ b) && lensMonotone (b :: rest)

/-- Read `n` code lengths starting at byte `start`. -/
def readLens (data : List Nat) (start : Nat) : Nat → Except ProbeError (List Nat)
  | 0 => .ok []
  | n + 1 =>
    match readByte data start with
    | .error e => .error e
    | .ok b =>
      match readLens data (start + 1) n with
      | .error e => .error e
      | .ok rest => .ok (b :: rest)

/-- Modelled from the spec: strict header parsing.  Validates the magic,
reads the layout flags (pawn handling, group count), checks the declared
file size against the actual data length, and checks the code-length
table. -/
def parse_header (data : List Nat) : Except ProbeError TableHeader := do
  let m0 ← readByte data 0
  let m1 ← readByte data 1
  let m2 ← readByte data 2
  let m3 ← readByte data 3
  if [m0, m1, m2, m3] ≠ WDL_MAGIC then
    .error .corruptTable
  else do
    let flags ← readByte data 4
    let s0 ← readByte data 5
    let s1 ← readByte data 6
    if data.length ≠ s0 + 256 * s1 then
      .error .corruptTable
    else do
      let nlen ← readByte data 7
      let lens ← readLens data 8 nlen
      if ¬ lensMonotone lens then
        .error .corruptTable
      else
        .ok { hasPawns := flags % 2 == 1, numGroups := flags / 2 % 8 + 1,
              declaredSize := s0 + 256 * s1 }

/-- Decode a value byte into a WDL class. -/
def wdlOfNat (v : Nat) : Wdl :=
  match v % 5 with
  | 0 => .loss
  | 1 => .blessedLoss
  | 2 => .draw
  | 3 => .cursedWin
  | _ => .win

/-- Modelled from the spec: `probe_wdl` of the fixed KNvKP position against
a file given as raw bytes — parse the header, locate the position's value
byte through a bounds-checked read, decode it. -/
def probe_wdl_model (data : List Nat) : Except ProbeError Wdl := do
  let h ← parse_header data
  let v ← readByte data (8 + h.numGroups)
  .ok (wdlOfNat v)

/-- The registry cell for the signature after a probe: a handle is present
exactly when the whole parse succeeded. -/
def resolvedHandle (data : List Nat) : Option TableHeader :=
  match parse_header data with
  | .ok h => some h
  | .error _ => none

/-- An `Except` outcome that is a success or a `CorruptTable` failure (and
in particular not an `Io` failure). -/
def OkOrCorrupt (x : Except ProbeError α) : Prop :=
  (∃ a, x = .ok a) ∨ x = .error .corruptTable

theorem okOrCorrupt_readByte (data : List Nat) (i : Nat) :
    OkOrCorrupt (readByte data i) := by
  unfold readByte
  cases data.get? i with
  | none => exact .inr rfl
  | some b => exact .inl ⟨b, rfl⟩

theorem okOrCorrupt_bind {x : Except ProbeError α}
    {f : α → Except ProbeError β} (hx : OkOrCorrupt x)
    (hf : ∀ a, OkOrCorrupt (f a)) : OkOrCorrupt (x >>= f) := by
  rcases hx with ⟨a, ha⟩ | ha
  · rw [ha]
    exact hf a
  · rw [ha]
    exact .inr rfl

theorem okOrCorrupt_readLens (data : List Nat) :
    ∀ (n start : Nat), OkOrCorrupt (readLens data start n) := by
  intro n
  induction n with
  | zero =>
    intro start
    exact .inl ⟨[], rfl⟩
  | succ n ih =>
    intro start
    unfold readLens
    rcases okOrCorrupt_readByte data start with ⟨b, hb⟩ | hb <;> rw [hb]
    · rcases ih (start + 1) with ⟨rest, hr⟩ | hr <;> rw [hr]
      · exact .inl ⟨b :: rest, rfl⟩
      · exact .inr rfl
    · exact .inr rfl

theorem okOrCorrupt_parse_header (data : List Nat) :
    OkOrCorrupt (parse_header data) := by
  unfold parse_header
  refine okOrCorrupt_bind (okOrCorrupt_readByte data 0) (fun m0 => ?_)
  refine okOrCorrupt_bind (okOrCorrupt_readByte data 1) (fun m1 => ?_)
  refine okOrCorrupt_bind (okOrCorrupt_readByte data 2) (fun m2 => ?_)
  refine okOrCorrupt_bind (okOrCorrupt_readByte data 3) (fun m3 => ?_)
  split
  · exact .inr rfl
  · refine okOrCorrupt_bind (okOrCorrupt_readByte data 4) (fun flags => ?_)
    refine okOrCorrupt_bind (okOrCorrupt_readByte data 5) (fun s0 => ?_)
    refine okOrCorrupt_bind (okOrCorrupt_readByte data 6) (fun s1 => ?_)
    split
    · exact .inr rfl
    · refine okOrCorrupt_bind (okOrCorrupt_readByte data 7) (fun nlen => ?_)
      refine okOrCorrupt_bind (okOrCorrupt_readLens data nlen 8) (fun lens => ?_)
      split
      · exact .inr rfl
      · exact .inl ⟨_, rfl⟩

theorem okOrCorrupt_probe_wdl (data : List Nat) :
    OkOrCorrupt (probe_wdl_model data) := by
  unfold probe_wdl_model
  refine okOrCorrupt_bind (okOrCorrupt_parse_header data) (fun h => ?_)
  refine okOrCorrupt_bind (okOrCorrupt_readByte data (8 + h.numGroups))
    (fun v => ?_)
  exact .inl ⟨_, rfl⟩

/-- C1 (spec-modelled): probing an arbitrary byte sequence presented as a
tablebase file either succeeds or fails with `CorruptTable` — never any
other error, and (the model being a total function whose every byte access
is bounds-checked) never a panic or an out-of-bounds read — and no
partially-initialized table handle is installed after a parse failure. -/
theorem probe_wdl_total_or_corrupt (data : List Nat) :
    ((∃ w, probe_wdl_model data = .ok w) ∨
        probe_wdl_model data = .error .corruptTable) ∧
      (∀ e, parse_header data = .error e → resolvedHandle data = none) := by
  refine ⟨okOrCorrupt_probe_wdl data, ?_⟩
  intro e he
  unfold resolvedHandle
  rw [he]

/-- Witness for C1 at a concrete input: the empty file fails to parse and
installs no handle; probing it reports `CorruptTable`. -/
theorem probe_wdl_total_or_corrupt_witness :
    resolvedHandle [] = none :=
  (probe_wdl_total_or_corrupt []).2 .corruptTable rfl

/-! ### Block decompression and cache (spec §4.4, C5 and C7)

The block decompressor and its cache are not under `src/`; they are
modelled from the spec: decoding a block is a pure function of the table
data, decoded blocks are inserted into a bounded cache with eviction, and
cache state must never change results. -/

/-- A table's data as the decompressor sees it: per group, per block, the
block's symbol bytes, plus the per-group base-value table used to expand
symbols into final values. -/
structure TableData where
  groups : List (List (List Nat))
  baseValues : List Nat
deriving DecidableEq, Repr

/-- Modelled from the spec: pure block decoding — fetch the block's symbol
bytes and expand each symbol through the base-value table; `none` when the
group or block index is out of range or a symbol is not covered by the
base-value table. -/
def decodeBlockPure (t : TableData) (g b : Nat) : Option (List Nat) :=
  match (t.groups.get? g).bind (fun blocks => blocks.get? b) with
  | none => none
  | some bytes =>
    if bytes.all (fun s => decide (s < t.baseValues.length)) then
      some (bytes.map (fun s => t.baseValues.getD s 0 + s))
    else none

/-- The bounded block cache, keyed by (group, block index). -/
structure BlockCache where
  entries : List ((Nat × Nat) × List Nat)
  bound : Nat
deriving DecidableEq, Repr

/-- Cache lookup. -/
def BlockCache.find (c : BlockCache) (k : Nat × Nat) : Option (List Nat) :=
  (c.entries.find? (fun e => e.1 == k)).map (·.2)

/-- Cache insertion with eviction beyond the bound. -/
def BlockCache.insert (c : BlockCache) (k : Nat × Nat) (v : List Nat) :
    BlockCache :=
  { c with entries := ((k, v) :: c.entries).take c.bound }

/-- Modelled from the spec: `decode_block` — consult the cache, decode and
insert on a miss (possibly evicting), report undecodable blocks as corrupt
data. -/
def decode_block (t : TableData) (g b : Nat) (c : BlockCache) :
    Except ProbeError (List Nat) × BlockCache :=
  match c.find (g, b) with
  | some v => (.ok v, c)
  | none =>
    match decodeBlockPure t g b with
    | some v => (.ok v, c.insert (g, b) v)
    | none => (.error .corruptTable, c)

/-- The cache produced by a sequence of block requests, starting empty. -/
def runRequests (t : TableData) (bound : Nat) : List (Nat × Nat) → BlockCache
  | [] => ⟨[], bound⟩
  | r :: rs => (decode_block t r.1 r.2 (runRequests t bound rs)).2

/-- Cache well-formedness: every cached entry is the pure decode of its
key. -/
def CacheWF (t : TableData) (c : BlockCache) : Prop :=
  ∀ k v, (k, v) ∈ c.entries → decodeBlockPure t k.1 k.2 = some v

theorem cacheWF_find {t : TableData} {c : BlockCache} (hwf : CacheWF t c)
    {k : Nat × Nat} {v : List Nat} (h : c.find k = some v) :
    decodeBlockPure t k.1 k.2 = some v := by
  unfold BlockCache.find at h
  cases hf : c.entries.find? (fun e => e.1 == k) with
  | none =>
    rw [hf] at h
    cases h
  | some e =>
    rw [hf] at h
    cases h
    have hmem := List.mem_of_find?_eq_some hf
    have hbeq := List.find?_some hf
    have hkey : e.1 = k := eq_of_beq (by exact hbeq)
    rw [← hkey]
    exact hwf e.1 e.2 hmem

theorem cacheWF_decode_block {t : TableData} {c : BlockCache}
    (hwf : CacheWF t c) (g b : Nat) :
    CacheWF t (decode_block t g b c).2 := by
  unfold decode_block
  cases hf : c.find (g, b) with
  | some v => exact hwf
  | none =>
    cases hd : decodeBlockPure t g b with
    | none => exact hwf
    | some v =>
      intro k w hmem
      unfold BlockCache.insert at hmem
      simp only at hmem
      have hmem' : (k, w) ∈ ((g, b), v) :: c.entries :=
        List.mem_of_mem_take hmem
      rcases List.mem_cons.mp hmem' with heq | hmem''
      · cases heq
        exact hd
      · exact hwf k w hmem''

theorem cacheWF_runRequests (t : TableData) (bound : Nat)
    (reqs : List (Nat × Nat)) : CacheWF t (runRequests t bound reqs) := by
  induction reqs with
  | nil =>
    intro k v hmem
    cases hmem
  | cons r rs ih =>
    exact cacheWF_decode_block ih r.1 r.2

theorem decode_block_value {t : TableData} {c : BlockCache}
    (hwf : CacheWF t c) (g b : Nat) :
    (decode_block t g b c).1 =
      match decodeBlockPure t g b with
      | some v => .ok v
      | none => .error .corruptTable := by
  unfold decode_block
  cases hf : c.find (g, b) with
  | some v =>
    have := cacheWF_find hwf hf
    simp only at this
    rw [this]
  | none =>
    cases hd : decodeBlockPure t g b with
    | none => rfl
    | some v => rfl

/-- C5 (spec-modelled): `decode_block` is a deterministic function of
(table, group, block index): any two calls with the same arguments return
identical values regardless of the cache state — hit, miss, or after any
sequence of requests and evictions — namely the pure decode of the
block. -/
theorem decode_block_deterministic (t : TableData) (g b : Nat)
    (bound₁ bound₂ : Nat) (reqs₁ reqs₂ : List (Nat × Nat)) :
    (decode_block t g b (runRequests t bound₁ reqs₁)).1 =
        (decode_block t g b (runRequests t bound₂ reqs₂)).1 ∧
      (decode_block t g b (runRequests t bound₁ reqs₁)).1 =
        match decodeBlockPure t g b with
        | some v => .ok v
        | none => .error .corruptTable := by
  have h1 := decode_block_value (cacheWF_runRequests t bound₁ reqs₁) g b
  have h2 := decode_block_value (cacheWF_runRequests t bound₂ reqs₂) g b
  exact ⟨by rw [h1, h2], h1⟩

/-! ### Bounds-checked block reads (spec §4.4, C7) -/

/-- Modelled from the spec: the bounds-checked read a block request
performs through the Filesystem capability.  A request beyond the table's
declared size is corrupt data, checked before any I/O; a failure of the
filesystem itself is an `Io` error; a short (truncated) read is corrupt
data. -/
def read_block_bytes (declaredSize : Nat)
    (fs : Nat → Nat → Except Nat (List Nat)) (offset len : Nat) :
    Except ProbeError (List Nat) :=
  if declaredSize < offset + len then .error .corruptTable
  else
    match fs offset len with
    | .error e => .error (.io e)
    | .ok bytes =>
      if bytes.length < len then .error .corruptTable else .ok bytes

/-- C7 (spec-modelled): the two failure kinds of a block read are never
conflated: the result is `Io e` exactly when the request was in range and
the Filesystem capability itself failed with `e`, and `CorruptTable`
exactly when the request was out of the table's declared range or the read
came back truncated. -/
theorem read_block_error_kinds (declaredSize : Nat)
    (fs : Nat → Nat → Except Nat (List Nat)) (offset len : Nat) :
    (∀ e, read_block_bytes declaredSize fs offset len = .error (.io e) ↔
        offset + len ≤ declaredSize ∧ fs offset len = .error e) ∧
      (read_block_bytes declaredSize fs offset len = .error .corruptTable ↔
        declaredSize < offset + len ∨
          (offset + len ≤ declaredSize ∧
            ∃ bytes, fs offset len = .ok bytes ∧ bytes.length < len)) := by
  by_cases hrange : declaredSize < offset + len
  · have hv : read_block_bytes declaredSize fs offset len =
        .error .corruptTable := by
      unfold read_block_bytes
      rw [if_pos hrange]
    rw [hv]
    constructor
    · intro e
      constructor
      · intro h
        simp at h
      · intro ⟨hle, _⟩
        omega
    · exact iff_of_true rfl (.inl hrange)
  · have hle : offset + len ≤ declaredSize := by omega
    cases hfs : fs offset len with
    | error e2 =>
      have hv : read_block_bytes declaredSize fs offset len =
          .error (.io e2) := by
        unfold read_block_bytes
        rw [if_neg hrange, hfs]
      rw [hv]
      constructor
      · intro e
        constructor
        · intro h
          simp only [Except.error.injEq, ProbeError.io.injEq] at h
          exact ⟨hle, by rw [h]⟩
        · rintro ⟨_, hfe⟩
          simp only [Except.error.injEq] at hfe
          rw [hfe]
      · constructor
        · intro h
          simp at h
        · rintro (hr | ⟨_, bytes, hb, _⟩)
          · omega
          · cases hb
    | ok bytes =>
      by_cases hshort : bytes.length < len
      · have hv : read_block_bytes declaredSize fs offset len =
            .error .corruptTable := by
          unfold read_block_bytes
          rw [if_neg hrange, hfs]
          exact if_pos hshort
        rw [hv]
        constructor
        · intro e
          constructor
          · intro h
            simp at h
          · rintro ⟨_, hfe⟩
            cases hfe
        · exact iff_of_true rfl (.inr ⟨hle, bytes, rfl, hshort⟩)
      · have hv : read_block_bytes declaredSize fs offset len = .ok bytes := by
          unfold read_block_bytes
          rw [if_neg hrange, hfs]
          exact if_neg hshort
        rw [hv]
        constructor
        · intro e
          constructor
          · intro h
            cases h
          · rintro ⟨_, hfe⟩
            cases hfe
        · constructor
          · intro h
            cases h
          · rintro (hr | ⟨_, bytes2, hb, hlen⟩)
            · omega
            · simp only [Except.ok.injEq] at hb
              rw [← hb] at hlen
              omega

/-- Witness for C7 at a concrete input: a filesystem that fails with code 7
surfaces as `Io 7` for an in-range request. -/
theorem read_block_error_kinds_witness :
    read_block_bytes 10 (fun _ _ => .error 7) 0 4 = .error (.io 7) :=
  ((read_block_error_kinds 10 (fun _ _ => .error 7) 0 4).1 7).mpr
    ⟨by omega, rfl⟩

/-! ### Concurrent once-only table resolution (spec §4.2/§5, C8)

The registry's lazy initialization is not under `src/`; it is modelled
from the spec as the compute-once publish-result discipline: a guarded
cell per signature with states empty, running, and done; a thread finding
the cell empty claims it and parses the header; threads finding it
running block; threads finding it done share the published result.  The
interleaving of `n` threads is a step relation on the global state. -/

instance : DecidableEq (Except ProbeError TableHeader) := fun x y =>
  match x, y with
  | .error a, .error b =>
    if h : a = b then isTrue (by rw [h])
    else isFalse (fun hc => by cases hc; exact h rfl)
  | .ok a, .ok b =>
    if h : a = b then isTrue (by rw [h])
    else isFalse (fun hc => by cases hc; exact h rfl)
  | .error _, .ok _ => isFalse (fun hc => by cases hc)
  | .ok _, .error _ => isFalse (fun hc => by cases hc)

/-- The registry cell for one material signature. -/
inductive CellState where
  | empty
  | running
  | done (r : Except ProbeError TableHeader)
deriving DecidableEq, Repr

/-- What one probing thread is doing. -/
inductive TStatus where
  | idle
  | parsing
  | waiting
  | got (r : Except ProbeError TableHeader)
deriving DecidableEq, Repr

/-- Global state: the cell, the number of header parses begun, and each
thread's status. -/
structure RegState (n : Nat) where
  cell : CellState
  parses : Nat
  threads : Fin n → TStatus

/-- Modelled from the spec: the interleaving steps of concurrent first-time
probes for one signature. -/
inductive RegStep (file : List Nat) (n : Nat) :
    RegState n → RegState n → Prop
  | start (s : RegState n) (t : Fin n) :
      s.threads t = .idle → s.cell = .empty →
      RegStep file n s
        ⟨.running, s.parses + 1, Function.update s.threads t .parsing⟩
  | finish (s : RegState n) (t : Fin n) :
      s.threads t = .parsing →
      RegStep file n s
        ⟨.done (parse_header file), s.parses,
          Function.update s.threads t (.got (parse_header file))⟩
  | block (s : RegState n) (t : Fin n) :
      s.threads t = .idle → s.cell = .running →
      RegStep file n s
        ⟨s.cell, s.parses, Function.update s.threads t .waiting⟩
  | observe (s : RegState n) (t : Fin n) (r : Except ProbeError TableHeader) :
      (s.threads t = .idle ∨ s.threads t = .waiting) → s.cell = .done r →
      RegStep file n s
        ⟨s.cell, s.parses, Function.update s.threads t (.got r)⟩

/-- The initial state: empty cell, no parses, all threads idle. -/
def initState (n : Nat) : RegState n := ⟨.empty, 0, fun _ => .idle⟩

/-- States reachable by any interleaving of the threads. -/
def Reachable (file : List Nat) (n : Nat) (s : RegState n) : Prop :=
  Relation.ReflTransGen (RegStep file n) (initState n) s

/-- The inductive invariant of the registry cell. -/
def RegInv (file : List Nat) (n : Nat) (s : RegState n) : Prop :=
  (s.parses = if s.cell = .empty then 0 else 1) ∧
    (∀ r, s.cell = .done r → r = parse_header file) ∧
    (∀ t, s.threads t = .parsing → s.cell ≠ .empty) ∧
    (∀ t r, s.threads t = .got r →
      r = parse_header file ∧ s.cell ≠ .empty)

theorem regInv_init (file : List Nat) (n : Nat) : RegInv file n (initState n) := by
  refine ⟨rfl, ?_, ?_, ?_⟩
  · intro r h
    cases h
  · intro t h
    cases h
  · intro t r h
    cases h

theorem regInv_step {file : List Nat} {n : Nat} {s s' : RegState n}
    (hinv : RegInv file n s) (hstep : RegStep file n s s') :
    RegInv file n s' := by
  obtain ⟨i1, i2, i3, i4⟩ := hinv
  cases hstep with
  | start t hidle hcell =>
    refine ⟨?_, ?_, ?_, ?_⟩
    · show s.parses + 1 = 1
      rw [hcell] at i1
      simp at i1
      omega
    · intro r h
      cases h
    · intro t' _
      show CellState.running ≠ CellState.empty
      simp
    · intro t' r hg
      replace hg : Function.update s.threads t TStatus.parsing t' =
        TStatus.got r := hg
      rw [Function.update_apply] at hg
      by_cases ht : t' = t
      · rw [if_pos ht] at hg
        cases hg
      · rw [if_neg ht] at hg
        exact ⟨(i4 t' r hg).1, by simp⟩
  | finish t hparsing =>
    have hne : s.cell ≠ .empty := i3 t hparsing
    refine ⟨?_, ?_, ?_, ?_⟩
    · show s.parses = 1
      rw [if_neg hne] at i1
      exact i1
    · intro r h
      cases h
      rfl
    · intro t' _
      show CellState.done (parse_header file) ≠ CellState.empty
      simp
    · intro t' r hg
      replace hg : Function.update s.threads t
          (TStatus.got (parse_header file)) t' = TStatus.got r := hg
      rw [Function.update_apply] at hg
      by_cases ht : t' = t
      · rw [if_pos ht] at hg
        cases hg
        exact ⟨rfl, by simp⟩
      · rw [if_neg ht] at hg
        exact ⟨(i4 t' r hg).1, by simp⟩
  | block t hidle hcell =>
    refine ⟨i1, i2, ?_, ?_⟩
    · intro t' hp
      replace hp : Function.update s.threads t TStatus.waiting t' =
        TStatus.parsing := hp
      rw [Function.update_apply] at hp
      by_cases ht : t' = t
      · rw [if_pos ht] at hp
        cases hp
      · rw [if_neg ht] at hp
        exact i3 t' hp
    · intro t' r hg
      replace hg : Function.update s.threads t TStatus.waiting t' =
        TStatus.got r := hg
      rw [Function.update_apply] at hg
      by_cases ht : t' = t
      · rw [if_pos ht] at hg
        cases hg
      · rw [if_neg ht] at hg
        exact i4 t' r hg
  | observe t r hpre hcell =>
    refine ⟨i1, i2, ?_, ?_⟩
    · intro t' hp
      replace hp : Function.update s.threads t (TStatus.got r) t' =
        TStatus.parsing := hp
      rw [Function.update_apply] at hp
      by_cases ht : t' = t
      · rw [if_pos ht] at hp
        cases hp
      · rw [if_neg ht] at hp
        exact i3 t' hp
    · intro t' r' hg
      replace hg : Function.update s.threads t (TStatus.got r) t' =
        TStatus.got r' := hg
      rw [Function.update_apply] at hg
      by_cases ht : t' = t
      · rw [if_pos ht] at hg
        cases hg
        refine ⟨i2 r hcell, ?_⟩
        show s.cell ≠ CellState.empty
        rw [hcell]
        simp
      · rw [if_neg ht] at hg
        exact i4 t' r' hg

theorem regInv_reachable {file : List Nat} {n : Nat} {s : RegState n}
    (h : Reachable file n s) : RegInv file n s := by
  induction h with
  | refl => exact regInv_init file n
  | tail _ hstep ih => exact regInv_step ih hstep

/-- C8 (spec-modelled): for every material signature file and every number
of threads, in any reachable state of any interleaving of N concurrent
first-time probes, once some thread has observed a handle, exactly one
header parse has begun, and every observed handle is the same completed
parse result of the signature's file — no caller ever observes a
partially-initialized handle and no file is parsed twice. -/
theorem once_only_resolution (file : List Nat) (n : Nat) (s : RegState n)
    (h : Reachable file n s) (t0 : Fin n) (r0 : Except ProbeError TableHeader)
    (hgot : s.threads t0 = .got r0) :
    s.parses = 1 ∧
      ∀ (t : Fin n) (r : Except ProbeError TableHeader),
        s.threads t = .got r → r = parse_header file := by
  obtain ⟨i1, _, _, i4⟩ := regInv_reachable h
  rcases i4 t0 r0 hgot with ⟨_, hne⟩
  refine ⟨?_, fun t r hg => (i4 t r hg).1⟩
  rw [if_neg hne] at i1
  exact i1

/-- Witness for C8 at a concrete input: one thread resolving the empty file
from the initial state performs exactly one parse and observes the parse
result. -/
theorem once_only_resolution_witness :
    (RegState.mk (n := 1) (.done (parse_header [])) 1
        (Function.update (Function.update (fun _ => TStatus.idle) 0 .parsing) 0
          (.got (parse_header [])))).parses = 1 ∧
      ∀ (t : Fin 1) (r : Except ProbeError TableHeader),
        (RegState.mk (n := 1) (.done (parse_header [])) 1
            (Function.update (Function.update (fun _ => TStatus.idle) 0 .parsing)
              0 (.got (parse_header [])))).threads t = .got r →
          r = parse_header [] := by
  have hstep1 : RegStep [] 1 (initState 1)
      ⟨.running, 1, Function.update (fun _ => TStatus.idle) 0 .parsing⟩ :=
    RegStep.start (initState 1) 0 rfl rfl
  have hstep2 : RegStep [] 1
      ⟨.running, 1, Function.update (fun _ => TStatus.idle) 0 .parsing⟩
      ⟨.done (parse_header []), 1,
        Function.update (Function.update (fun _ => TStatus.idle) 0 .parsing) 0
          (.got (parse_header []))⟩ :=
    RegStep.finish _ 0 rfl
  have hreach : Reachable [] 1
      ⟨.done (parse_header []), 1,
        Function.update (Function.update (fun _ => TStatus.idle) 0 .parsing) 0
          (.got (parse_header []))⟩ :=
    Relation.ReflTransGen.tail (Relation.ReflTransGen.single hstep1) hstep2
  exact once_only_resolution [] 1 _ hreach 0 (parse_header []) rfl
